import Mathlib

/-!
# Verification of the process-manager / memory-allocator core

Shallow embedding of the scheduling, admission, logging, input-reading and
best-fit memory-allocation code of the simulator, together with proofs of
the specified properties.

The C sources keep the free list and the various queues as singly linked
lists of heap pointers; here every list is a Lean `List` of values, an
in-place pointer update becomes `List.set` at the node's position, and
`list_pop_node` (remove a node, continue from its successor) is the
structural recursion of the scanning functions.
-/

/-! ## Memory blocks and the best-fit allocator (`allocator_find_best_fit`,
`allocater_free_memory`, `mem_block_cmp`) -/

/-- `memory_block`: start offset (`index`) and `size`, both non-negative
integers (`uint32_t` in the source; all values stay far below `2^32`). -/
structure MemBlock where
  index : Nat
  size : Nat
deriving DecidableEq, Repr

/-- `BUFFER_SIZE`: total capacity of the best-fit pool. -/
def BUFFER_SIZE : Nat := 2048

/-- `mem_block_cmp`: comparison used to keep the free list sorted by start
offset.  Returns `1` when the first block starts strictly after the second,
`-1` otherwise (the source never returns `0`). -/
def mem_block_cmp (b1 b2 : MemBlock) : Int :=
  if b1.index > b2.index then 1 else -1

/-- The scanning loop of `allocator_find_best_fit`: walk the free list
carrying the position `pos` of the current node, the chosen candidate
(`best`, paired with its position) and `min_gap`.  A block is skipped when
its size is below the request; otherwise it becomes the candidate when no
candidate exists yet or when its gap is strictly smaller than `min_gap`. -/
def chooseAux (req : Nat) : List MemBlock → Nat → Option (Nat × MemBlock) → Nat →
    Option (Nat × MemBlock)
  | [], _, best, _ => best
  | b :: rest, pos, best, min_gap =>
    if b.size < req then
      chooseAux req rest (pos + 1) best min_gap
    else
      let gap := b.size - req
      match best with
      | none => chooseAux req rest (pos + 1) (some (pos, b)) gap
      | some c =>
        if min_gap > gap then
          chooseAux req rest (pos + 1) (some (pos, b)) gap
        else
          chooseAux req rest (pos + 1) (some c) min_gap

/-- `allocator_find_best_fit`: choose the best-fitting free block; on
success return the granted block (carved from the low end of the chosen
block) together with the free list in which the chosen block's start has
advanced by the granted size and its size has shrunk by it.  On failure
return `none` (the caller leaves the free list untouched). -/
def allocator_find_best_fit (req : Nat) (free : List MemBlock) :
    Option (MemBlock × List MemBlock) :=
  match chooseAux req free 0 none 0 with
  | none => none
  | some (i, b) =>
    some (⟨b.index, req⟩, free.set i ⟨b.index + req, b.size - req⟩)

/-- Modelled from the spec: `list_insert_sorted` of the generic linked-list
container (its translation unit is not part of the sources; the spec says
`release` "reinserts the block into the free list in start-offset order").
Walks the list while `mem_block_cmp` places the new block strictly after
the current node and inserts it before the first node whose start offset is
not below the new block's. -/
def list_insert_sorted (b : MemBlock) : List MemBlock → List MemBlock
  | [] => [b]
  | c :: rest =>
    if mem_block_cmp b c > 0 then c :: list_insert_sorted b rest
    else b :: c :: rest

/-- One scanning position of the adjacency pass of
`allocater_free_memory`: `cur` is the block at the current node.  When its
end offset equals the next block's start offset the two are merged (the C
code pops the earlier node and rewrites the later one to
`⟨b2.index - b1.size, b2.size + b1.size⟩`, that is `⟨cur.index,
cur.size + b2.size⟩`) and scanning continues from the merged node;
otherwise the current block is kept and scanning advances. -/
def coalesceGo (cur : MemBlock) : List MemBlock → List MemBlock
  | [] => [cur]
  | b2 :: rest =>
    if cur.index + cur.size = b2.index then
      coalesceGo ⟨cur.index, cur.size + b2.size⟩ rest
    else
      cur :: coalesceGo b2 rest

/-- The adjacency pass of `allocater_free_memory`, started at the head. -/
def coalesce : List MemBlock → List MemBlock
  | [] => []
  | b :: rest => coalesceGo b rest

/-- `allocater_free_memory` (source spelling): reinsert a released block
into the free list in start-offset order, then run the adjacency pass. -/
def allocater_free_memory (b : MemBlock) (free : List MemBlock) : List MemBlock :=
  coalesce (list_insert_sorted b free)

/-! ## Programs, processes and the two schedulers (`shortest_job_first`,
`round_robin`, `keep_process_running`, `switch_process`) -/

/-- `SCHEDULER_TYPE` from `process_manager.h`. -/
inductive SCHEDULER_TYPE
  | SJF
  | RR
deriving DecidableEq, Repr

/-- `MEMORY_STRATEGY` from `process_manager.h`. -/
inductive MEMORY_STRATEGY
  | INFINITE
  | BEST_FIT
deriving DecidableEq, Repr

/-- `program`: immutable input record. -/
structure Program where
  name : String
  time_arrived : Nat
  service_time : Nat
  memory_required : Nat
deriving DecidableEq, Repr

/-- `PROCESS_STATE`. -/
inductive PState
  | READY
  | RUNNING
  | FINISHED
deriving DecidableEq, Repr

/-- `process`: the mutable per-program record (worker pid and pipe file
descriptors are operating-system handles and are not modelled). -/
structure Proc where
  prog : Program
  run_time : Nat
  state : PState
  pBlock : Option MemBlock
deriving DecidableEq, Repr

/-- `strcmp` on the underlying character lists: sign of the first
differing character, a strict prefix comparing below the longer string. -/
def strcmpAux : List Char → List Char → Int
  | [], [] => 0
  | [], _ :: _ => -1
  | _ :: _, [] => 1
  | a :: as, b :: bs =>
    if a < b then -1 else if b < a then 1 else strcmpAux as bs

/-- C `strcmp` (sign-faithful) on the process names. -/
def strcmp (s1 s2 : String) : Int := strcmpAux s1.data s2.data

/-- The scanning loop of `shortest_job_first`, carrying the position of the
current node, the chosen node (`chosen`, with its position) and `min_time`.
The first node is always adopted; afterwards a node replaces the choice
when its service time is strictly smaller, or on equal service time when
its arrival is strictly earlier, or on equal service time and arrival when
its name compares strictly below the choice's name. -/
def sjfAux : List Proc → Nat → Option (Nat × Proc) → Nat → Option (Nat × Proc)
  | [], _, chosen, _ => chosen
  | p :: rest, pos, chosen, min_time =>
    match chosen with
    | none => sjfAux rest (pos + 1) (some (pos, p)) p.prog.service_time
    | some c =>
      let service_time := p.prog.service_time
      if min_time = service_time then
        if c.2.prog.time_arrived = p.prog.time_arrived then
          if strcmp c.2.prog.name p.prog.name > 0 then
            sjfAux rest (pos + 1) (some (pos, p)) service_time
          else
            sjfAux rest (pos + 1) (some c) min_time
        else if c.2.prog.time_arrived > p.prog.time_arrived then
          sjfAux rest (pos + 1) (some (pos, p)) service_time
        else
          sjfAux rest (pos + 1) (some c) min_time
      else if min_time > service_time then
        sjfAux rest (pos + 1) (some (pos, p)) service_time
      else
        sjfAux rest (pos + 1) (some c) min_time

/-- `shortest_job_first`: returns the chosen node (value and position), or
`none` on an empty ready list. -/
def shortest_job_first (l : List Proc) : Option (Nat × Proc) :=
  sjfAux l 0 none 0

/-- `round_robin`: returns the head node of the ready list. -/
def round_robin (l : List Proc) : Option (Nat × Proc) :=
  match l with
  | [] => none
  | p :: _ => some (0, p)

/-- `process_submit_ready`: set the state to `READY` and push the process
to the tail of the ready list. -/
def process_submit_ready (p : Proc) (ready : List Proc) : List Proc :=
  ready ++ [{ p with state := .READY }]

/-- `keep_process_running` on the scheduling state it touches (the running
process and the ready list); the worker-control signalling
(`process_continue` / `process_suspend`) exchanges bytes with the worker
and does not change this state.  Returns (kept, running', ready'). -/
def keep_process_running (type : SCHEDULER_TYPE) (running : Option Proc)
    (ready : List Proc) : Bool × Option Proc × List Proc :=
  match running with
  | none => (false, none, ready)
  | some p =>
    match type with
    | .SJF => (true, some p, ready)
    | .RR =>
      match ready with
      | [] => (true, some p, ready)
      | _ :: _ => (false, none, process_submit_ready p ready)

/-- `switch_process`: select a ready node under the active policy; when one
exists it becomes the running process (`process_run` sets its state to
`RUNNING`) and its node is popped from the ready list. -/
def switch_process (type : SCHEDULER_TYPE) (ready : List Proc) :
    Option Proc × List Proc :=
  let pReady := match type with
    | .SJF => shortest_job_first ready
    | .RR => round_robin ready
  match pReady with
  | none => (none, ready)
  | some (i, p) => (some { p with state := .RUNNING }, ready.eraseIdx i)

/-! ## Admission (`check_pending`, `process_try_create`) -/

/-- `process_try_create`: under `BEST_FIT` the process exists only when the
allocator grants a block (of the program's `memory_required`); under
`INFINITE` it is always created with no block.  The fresh record has
`run_time = 0`; its state field is assigned by `process_submit_ready`
immediately after creation, mirrored here by initialising it to `READY`. -/
def process_try_create (strategy : MEMORY_STRATEGY) (prog : Program)
    (free : List MemBlock) : Option (Proc × List MemBlock) :=
  match strategy with
  | .INFINITE => some (⟨prog, 0, .READY, none⟩, free)
  | .BEST_FIT =>
    match allocator_find_best_fit prog.memory_required free with
    | none => none
    | some (blk, free') => some (⟨prog, 0, .READY, some blk⟩, free')

/-- The arrival loop at the top of `check_pending`: starting from the
static `index`, push programs to the tail of the input queue while their
arrival time is at most the current time, and `break` at the first program
that has not yet arrived.  Returns (moved programs, remaining programs). -/
def arrivalsLoop (t : Nat) : List Program → List Program × List Program
  | [] => ([], [])
  | p :: rest =>
    if p.time_arrived > t then ([], p :: rest)
    else
      let (tk, rm) := arrivalsLoop t rest
      (p :: tk, rm)

/-- The head-to-tail scan of the input (admission) queue in
`check_pending`: an entry whose process can be created is popped (the scan
continuing from its successor) and the process collected for submission;
an entry whose creation fails stays and the scan moves on.  Returns
(remaining queue, created processes in scan order, free list). -/
def scanInput (strategy : MEMORY_STRATEGY) :
    List Program → List MemBlock → List Program × List Proc × List MemBlock
  | [], free => ([], [], free)
  | p :: rest, free =>
    match process_try_create strategy p free with
    | some (proc, free') =>
      let (rem, adm, free'') := scanInput strategy rest free'
      (rem, proc :: adm, free'')
    | none =>
      let (rem, adm, free') := scanInput strategy rest free
      (p :: rem, adm, free')

/-- `check_pending` on the state it touches: move newly arrived programs
into the input queue, then scan it; every created process is appended to
the registry (`list_active`) and submitted to the tail of the ready list.
Returns (remaining raw programs, input queue, registry, ready, free). -/
def check_pending (strategy : MEMORY_STRATEGY) (progs inputQ : List Program)
    (active ready : List Proc) (free : List MemBlock) (t : Nat) :
    List Program × List Program × List Proc × List Proc × List MemBlock :=
  let (tk, progs') := arrivalsLoop t progs
  let (q', adm, free') := scanInput strategy (inputQ ++ tk) free
  (progs', q', active ++ adm, adm.foldl (fun r p => process_submit_ready p r) ready, free')

/-! ## The clock update (`update`) and an engine transition system -/

/-- The engine state `update` touches: the registry (`list_active`, in
insertion order), the index of the running process in it
(`pRunningProcess`), and the simulated clock (`time`). -/
structure Engine where
  procs : List Proc
  running : Option Nat
  time : Nat
deriving DecidableEq, Repr

/-- `update`: advance the clock by `delta_time`; when a process is
running, grow its accumulated run-time by the same amount and, when that
reaches or exceeds its program's service time, terminate it in the same
step (`process_terminate` sets `FINISHED`; `pRunningProcess` is cleared).
Memory reclamation and logging on this path are modelled separately. -/
def update (e : Engine) (delta_time : Nat) : Engine :=
  let time' := e.time + delta_time
  match e.running with
  | none => { e with time := time' }
  | some i =>
    match e.procs[i]? with
    | none => { e with time := time' }
    | some p =>
      let p' := { p with run_time := p.run_time + delta_time }
      if p'.prog.service_time ≤ p'.run_time then
        { procs := e.procs.set i { p' with state := .FINISHED },
          running := none, time := time' }
      else
        { procs := e.procs.set i p', running := some i, time := time' }

/-- One step of the driving loop, as far as it affects `procs`/`running`:
admission of a created process (fresh record, `run_time = 0`, submitted
`READY`; per the input format its service time is a positive integer),
selection of a ready process (`switch_process` marks it `RUNNING`),
round-robin suspension (`process_suspend` + `process_submit_ready` mark
the running process `READY`), and the clock update.  Selection is allowed
on any `READY` registry entry, which covers both scheduling policies. -/
inductive EStep : Engine → Engine → Prop
  | submitNew (e : Engine) (p : Proc) (hserv : 1 ≤ p.prog.service_time)
      (hrt : p.run_time = 0) (hst : p.state = .READY) :
      EStep e { e with procs := e.procs ++ [p] }
  | switch (e : Engine) (i : Nat) (p : Proc) (hrun : e.running = none)
      (hget : e.procs[i]? = some p) (hready : p.state = .READY) :
      EStep e { e with procs := e.procs.set i { p with state := .RUNNING },
                       running := some i }
  | suspend (e : Engine) (i : Nat) (p : Proc) (hrun : e.running = some i)
      (hget : e.procs[i]? = some p) :
      EStep e { e with procs := e.procs.set i { p with state := .READY },
                       running := none }
  | tick (e : Engine) (delta_time : Nat) : EStep e (update e delta_time)

/-- Engine states reachable from the initial (empty) state. -/
inductive EngineReach : Engine → Prop
  | init : EngineReach ⟨[], none, 0⟩
  | step {e e' : Engine} : EngineReach e → EStep e e' → EngineReach e'

/-! ## Logging (`process_log`) -/

/-- `process_log`: the log lines printed for a process, by state.  The
`READY` case prints `pProcess->pBlock->index`; its call site in
`check_pending` only reaches it with a block present, `getD` standing for
the pointer dereference.  The `FINISHED` case prints two lines, the second
carrying the `sha=` field with the stored result string. -/
def process_log (t pending_count : Nat) (sha : String) (p : Proc) : List String :=
  match p.state with
  | .READY =>
    [toString t ++ ",READY,process_name=" ++ p.prog.name ++ ",assigned_at=" ++
      toString ((p.pBlock.getD ⟨0, 0⟩).index)]
  | .RUNNING =>
    [toString t ++ ",RUNNING,process_name=" ++ p.prog.name ++ ",remaining_time=" ++
      toString (p.prog.service_time - p.run_time)]
  | .FINISHED =>
    [toString t ++ ",FINISHED,process_name=" ++ p.prog.name ++ ",proc_remaining=" ++
      toString pending_count,
     toString t ++ ",FINISHED-PROCESS,process_name=" ++ p.prog.name ++ ",sha=" ++ sha]

/-- The admission-logging guard in `check_pending`: `process_log` runs for
a freshly submitted process only when `pProcess->pBlock != NULL`. -/
def check_pending_log (t : Nat) (p : Proc) : List String :=
  match p.pBlock with
  | some _ => process_log t 0 "" p
  | none => []

/-! ## The input-reading loop of `main` -/

/-- The `%u` conversion of `fscanf` applied to one whitespace-delimited
token of the input file (a non-empty run of decimal digits). -/
def parseUInt (s : String) : Option Nat :=
  match s.data with
  | [] => none
  | l =>
    if l.all Char.isDigit then
      some (l.foldl (fun n c => 10 * n + (c.toNat - 48)) 0)
    else none

/-- `program new_program = {}`: the zero-initialised record. -/
def zeroProgram : Program := ⟨"", 0, 0, 0⟩

/-- One `fscanf(fp, "%u %s %u %hu\n", ...)` call on the remaining input,
modelled as a token stream.  Returns `none` for `EOF` (input failure
before the first conversion) and otherwise the number of successful
conversions, the (partially) filled record and the unconsumed input: a
token failing a `%u`/`%hu` conversion stops the matching and is not
consumed, the earlier fields staying as already assigned and the later
ones as zero-initialised.  `%s` accepts any token; `%hu` stores the low
16 bits. -/
def fscanfRecord (toks : List String) : Option (Nat × Program × List String) :=
  match toks with
  | [] => none
  | t1 :: r1 =>
    match parseUInt t1 with
    | none => some (0, zeroProgram, t1 :: r1)
    | some a =>
      match r1 with
      | [] => some (1, { zeroProgram with time_arrived := a }, [])
      | t2 :: r2 =>
        match r2 with
        | [] => some (2, { zeroProgram with time_arrived := a, name := t2 }, [])
        | t3 :: r3 =>
          match parseUInt t3 with
          | none =>
            some (2, { zeroProgram with time_arrived := a, name := t2 }, t3 :: r3)
          | some sv =>
            match r3 with
            | [] =>
              some (3, { zeroProgram with
                time_arrived := a, name := t2, service_time := sv }, [])
            | t4 :: r4 =>
              match parseUInt t4 with
              | none =>
                some (3, { zeroProgram with
                  time_arrived := a, name := t2, service_time := sv }, t4 :: r4)
              | some mem =>
                some (4, ⟨t2, a, sv, mem % 65536⟩, r4)

/-- The reading loop of `main`, with fuel bounding the number of
iterations: `while(TRUE) { if (fscanf(...) == EOF) break; program_add; }`.
Every record returned by a non-`EOF` `fscanf` call is added.  The boolean
reports whether the loop reached its `break` within the given fuel. -/
def readLoop : Nat → List String → List Program → List Program × List String × Bool
  | 0, toks, acc => (acc, toks, false)
  | fuel + 1, toks, acc =>
    match fscanfRecord toks with
    | none => (acc, toks, true)
    | some (_, prog, rest) => readLoop fuel rest (acc ++ [prog])

/-! ## The allocator transition system (interleavings of
`allocator_find_best_fit` and `allocater_free_memory`) -/

/-- The allocator-visible state: the free list, and the blocks currently
owned by non-finished processes (in grant order). -/
structure AllocState where
  free : List MemBlock
  owned : List MemBlock
deriving DecidableEq, Repr

/-- States reachable from the initial single full-pool block by any
interleaving of successful allocations (a failed allocation leaves the
state unchanged) and releases of owned blocks. -/
inductive AllocReach : AllocState → Prop
  | init : AllocReach ⟨[⟨0, BUFFER_SIZE⟩], []⟩
  | alloc {s : AllocState} (req : Nat) {blk : MemBlock} {free' : List MemBlock} :
      AllocReach s → allocator_find_best_fit req s.free = some (blk, free') →
      AllocReach ⟨free', s.owned ++ [blk]⟩
  | release {s : AllocState} (o₁ o₂ : List MemBlock) (b : MemBlock) :
      AllocReach s → s.owned = o₁ ++ b :: o₂ →
      AllocReach ⟨allocater_free_memory b s.free, o₁ ++ o₂⟩

/-- The memory addresses covered by a block, as a multiset. -/
def cells (b : MemBlock) : Multiset Nat :=
  (Multiset.range b.size).map (b.index + ·)

/-- The addresses covered by a list of blocks, multiplicities included. -/
def cellsSum (l : List MemBlock) : Multiset Nat :=
  l.foldr (fun b m => cells b + m) 0

/-- Two blocks overlap when they share an address. -/
def Overlap (a b : MemBlock) : Prop :=
  max a.index b.index < min (a.index + a.size) (b.index + b.size)

instance (a b : MemBlock) : Decidable (Overlap a b) :=
  inferInstanceAs (Decidable (_ < _))

/-- The strict scheduling priority implemented by the `shortest_job_first`
replacement tests: strictly smaller service time, or equal service time
and strictly earlier arrival, or equal on both and a name comparing
strictly below under `strcmp`. -/
def jobBefore (p q : Proc) : Prop :=
  p.prog.service_time < q.prog.service_time ∨
  (p.prog.service_time = q.prog.service_time ∧
    (p.prog.time_arrived < q.prog.time_arrived ∨
      (p.prog.time_arrived = q.prog.time_arrived ∧
        strcmp p.prog.name q.prog.name < 0)))

example : allocator_find_best_fit 5 [⟨0, 3⟩, ⟨10, 8⟩, ⟨30, 6⟩] =
    some (⟨30, 5⟩, [⟨0, 3⟩, ⟨10, 8⟩, ⟨35, 1⟩]) := by decide

example : allocator_find_best_fit 9 [⟨0, 3⟩, ⟨10, 8⟩] = none := by decide

example : allocater_free_memory ⟨3, 7⟩ [⟨0, 3⟩, ⟨10, 8⟩, ⟨30, 6⟩] =
    [⟨0, 18⟩, ⟨30, 6⟩] := by decide

/-! ## C5: round-robin selection and preemption, SJF non-preemption -/

/-- C5: under round-robin, selection returns the head of the ready queue;
at a quantum boundary with a running process and a non-empty ready queue
the running process is suspended and re-enqueued at the tail (so the
subsequent selection returns the previous head); with an empty ready queue
the same process keeps running; under SJF a running process is never
preempted. -/
theorem C5_round_robin_selection_and_preemption (p q : Proc) (qs ready : List Proc) :
    round_robin (q :: qs) = some (0, q) ∧
    round_robin ([] : List Proc) = none ∧
    keep_process_running .RR (some p) (q :: qs) =
      (false, none, q :: qs ++ [{ p with state := .READY }]) ∧
    (switch_process .RR (q :: qs ++ [{ p with state := .READY }])).1 =
      some { q with state := .RUNNING } ∧
    keep_process_running .RR (some p) [] = (true, some p, []) ∧
    keep_process_running .SJF (some p) ready = (true, some p, ready) := by
  exact ⟨rfl, rfl, rfl, rfl, rfl, rfl⟩

/-! ## C9: behaviour of the reading loop on a malformed record -/

/-- On a stream whose next token fails the first `%u` conversion, each
iteration of the reading loop adds one zero-initialised record and leaves
the stream untouched, so the loop never reaches its `break`. -/
theorem readLoop_stuck_of_unparsable (t : String) (rest : List String)
    (h : parseUInt t = none) :
    ∀ (n : Nat) (acc : List Program),
      readLoop n (t :: rest) acc =
        (acc ++ List.replicate n zeroProgram, t :: rest, false) := by
  intro n
  induction n with
  | zero => intro acc; simp [readLoop]
  | succ n ih =>
    intro acc
    simp only [readLoop, fscanfRecord, h]
    rw [ih (acc ++ [zeroProgram])]
    simp [List.replicate_succ]

/-- C9: on the input whose first line is the unparsable token `abc`, the
reading loop does not stop: `fscanf` reports `0` matched items rather than
`EOF`, the token is never consumed, and every iteration adds another
zero-filled record — the loop never terminates. -/
theorem C9_reading_loop_diverges_on_malformed :
    ∀ n : Nat, readLoop n ["abc"] [] =
      (List.replicate n zeroProgram, ["abc"], false) := by
  intro n
  have h := readLoop_stuck_of_unparsable "abc" [] (by decide) n []
  simpa using h

/-! ## C2: coalescing after release -/

/-- C2 counterexample: on a free list that is sorted by ascending start
offset (as the claim requires) but whose blocks are not disjoint from the
released block, the single adjacency pass of `allocater_free_memory`
returns with two blocks whose end and start offsets coincide: releasing
`⟨1,1⟩` into `[⟨0,3⟩, ⟨3,5⟩]` leaves `⟨0,3⟩` and `⟨3,5⟩` unmerged with
`0 + 3 = 3`. -/
theorem C2_counterexample :
    ([⟨0, 3⟩, ⟨3, 5⟩] : List MemBlock).Pairwise (fun a b => a.index ≤ b.index) ∧
    allocater_free_memory ⟨1, 1⟩ [⟨0, 3⟩, ⟨3, 5⟩] = [⟨0, 3⟩, ⟨1, 1⟩, ⟨3, 5⟩] ∧
    (⟨0, 3⟩ : MemBlock).index + (⟨0, 3⟩ : MemBlock).size = (⟨3, 5⟩ : MemBlock).index := by
  refine ⟨?_, by decide, by decide⟩
  decide

/-- `list_insert_sorted` never returns the empty list. -/
theorem list_insert_sorted_ne_nil (b : MemBlock) (f : List MemBlock) :
    list_insert_sorted b f ≠ [] := by
  cases f with
  | nil => simp [list_insert_sorted]
  | cons c rest =>
    simp only [list_insert_sorted]
    split <;> simp

/-- The adjacency pass keeps the start offset of the scanned node. -/
theorem coalesceGo_head (l : List MemBlock) (cur : MemBlock) :
    ∃ c rest, coalesceGo cur l = c :: rest ∧ c.index = cur.index := by
  induction l generalizing cur with
  | nil => exact ⟨cur, [], rfl, rfl⟩
  | cons b2 rest ih =>
    simp only [coalesceGo]
    split
    · obtain ⟨c, r, hr, hi⟩ := ih ⟨cur.index, cur.size + b2.size⟩
      exact ⟨c, r, hr, hi⟩
    · exact ⟨cur, coalesceGo b2 rest, rfl, rfl⟩

/-- On a chain of blocks whose end offsets do not exceed the next start
offset, the adjacency pass yields a chain in which every end offset is
strictly below the next start offset (all touching pairs are merged). -/
theorem coalesceGo_chain (l : List MemBlock) (cur : MemBlock)
    (h : List.Chain' (fun a b => a.index + a.size ≤ b.index) (cur :: l)) :
    List.Chain' (fun a b => a.index + a.size < b.index) (coalesceGo cur l) := by
  induction l generalizing cur with
  | nil => exact List.chain'_singleton cur
  | cons b2 rest ih =>
    rw [List.chain'_cons] at h
    obtain ⟨hadj, htail⟩ := h
    simp only [coalesceGo]
    split
    · rename_i heq
      apply ih
      rw [List.chain'_cons'] at htail ⊢
      refine ⟨?_, htail.2⟩
      intro y hy
      have := htail.1 y hy
      simpa [← heq, Nat.add_assoc] using this
    · rename_i hne
      have hlt : cur.index + cur.size < b2.index := lt_of_le_of_ne hadj hne
      rw [List.chain'_cons']
      constructor
      · intro y hy
        obtain ⟨c, r, hr, hi⟩ := coalesceGo_head rest b2
        rw [hr] at hy
        simp only [List.head?_cons, Option.mem_def, Option.some.injEq] at hy
        subst hy
        omega
      · exact ih b2 htail

/-- C2 (amended): when reinserting the released block keeps the free list
a chain of non-overlapping blocks sorted by start offset (each block's end
offset at most the next block's start offset — the shape every reachable
free list has), `allocater_free_memory` returns a list in which every end
offset is strictly below the next start offset: the list is sorted by
ascending start offset and no two blocks (in either order) have an end
offset equal to a start offset. -/
theorem C2_release_sorted_and_fully_coalesced (b : MemBlock) (f : List MemBlock)
    (h : (list_insert_sorted b f).Chain' (fun x y => x.index + x.size ≤ y.index)) :
    (allocater_free_memory b f).Pairwise (fun x y => x.index ≤ y.index) ∧
    (allocater_free_memory b f).Pairwise
      (fun x y => x.index + x.size ≠ y.index ∧ y.index + y.size ≠ x.index) := by
  have hpw : (allocater_free_memory b f).Pairwise
      (fun x y => x.index + x.size < y.index) := by
    cases hins : list_insert_sorted b f with
    | nil => exact absurd hins (list_insert_sorted_ne_nil b f)
    | cons c l' =>
      have hch : List.Chain' (fun x y => x.index + x.size < y.index) (coalesceGo c l') := by
        apply coalesceGo_chain
        rw [← hins]; exact h
      have : allocater_free_memory b f = coalesceGo c l' := by
        simp [allocater_free_memory, hins, coalesce]
      rw [this]
      haveI : IsTrans MemBlock (fun x y => x.index + x.size < y.index) :=
        ⟨fun a b c hab hbc => by omega⟩
      exact List.chain'_iff_pairwise.mp hch
  constructor
  · exact hpw.imp (fun h => by omega)
  · exact hpw.imp (fun h => ⟨by omega, by omega⟩)

/-- Witness for C2: a concrete release satisfying the hypothesis. -/
theorem C2_release_sorted_and_fully_coalesced_witness :
    ((list_insert_sorted ⟨3, 7⟩ [⟨0, 3⟩, ⟨30, 6⟩]).Chain'
        (fun x y => x.index + x.size ≤ y.index)) ∧
    ((allocater_free_memory ⟨3, 7⟩ [⟨0, 3⟩, ⟨30, 6⟩]).Pairwise
        (fun x y => x.index ≤ y.index) ∧
      (allocater_free_memory ⟨3, 7⟩ [⟨0, 3⟩, ⟨30, 6⟩]).Pairwise
        (fun x y => x.index + x.size ≠ y.index ∧ y.index + y.size ≠ x.index)) := by
  have hlist : list_insert_sorted ⟨3, 7⟩ [⟨0, 3⟩, ⟨30, 6⟩] =
      [⟨0, 3⟩, ⟨3, 7⟩, ⟨30, 6⟩] := by decide
  have hch : (list_insert_sorted ⟨3, 7⟩ [⟨0, 3⟩, ⟨30, 6⟩]).Chain'
      (fun x y => x.index + x.size ≤ y.index) := by
    rw [hlist, List.chain'_cons, List.chain'_cons]
    exact ⟨by decide, by decide, List.chain'_singleton _⟩
  exact ⟨hch, C2_release_sorted_and_fully_coalesced ⟨3, 7⟩ [⟨0, 3⟩, ⟨30, 6⟩] hch⟩

/-! ## C1: best-fit allocation -/

/-- When the best-fit scan returns no candidate, no accumulator was ever
adopted: the scan started with none and every scanned block is too
small. -/
theorem chooseAux_eq_none (req : Nat) :
    ∀ (l : List MemBlock) (pos : Nat) (acc : Option (Nat × MemBlock)) (g : Nat),
      chooseAux req l pos acc g = none → acc = none ∧ ∀ b ∈ l, b.size < req := by
  intro l
  induction l with
  | nil =>
    intro pos acc g h
    exact ⟨h, by simp⟩
  | cons x rest ih =>
    intro pos acc g h
    by_cases hsz : x.size < req
    · simp only [chooseAux, if_pos hsz] at h
      obtain ⟨ha, hrest⟩ := ih _ _ _ h
      refine ⟨ha, ?_⟩
      intro b hb
      rcases List.mem_cons.mp hb with rfl | hb
      · exact hsz
      · exact hrest b hb
    · cases acc with
      | none =>
        simp only [chooseAux, if_neg hsz] at h
        obtain ⟨ha, -⟩ := ih _ _ _ h
        exact absurd ha (by simp)
      | some c =>
        simp only [chooseAux, if_neg hsz] at h
        by_cases hgt : g > x.size - req
        · rw [if_pos hgt] at h
          obtain ⟨ha, -⟩ := ih _ _ _ h
          exact absurd ha (by simp)
        · rw [if_neg hgt] at h
          obtain ⟨ha, -⟩ := ih _ _ _ h
          exact absurd ha (by simp)

/-- The block returned by the best-fit scan is the accumulator or a
sufficiently large block of the scanned list, reported at its position. -/
theorem chooseAux_sound (req : Nat) :
    ∀ (l : List MemBlock) (pos : Nat) (acc : Option (Nat × MemBlock)) (g : Nat)
      (i : Nat) (b : MemBlock),
      chooseAux req l pos acc g = some (i, b) →
      acc = some (i, b) ∨ (pos ≤ i ∧ l[i - pos]? = some b ∧ req ≤ b.size) := by
  intro l
  induction l with
  | nil =>
    intro pos acc g i b h
    exact Or.inl h
  | cons x rest ih =>
    intro pos acc g i b h
    have fromRest : ∀ (acc' : Option (Nat × MemBlock)) (g' : Nat),
        chooseAux req rest (pos + 1) acc' g' = some (i, b) →
        acc' = some (i, b) ∨
          (pos ≤ i ∧ (x :: rest)[i - pos]? = some b ∧ req ≤ b.size) := by
      intro acc' g' h'
      rcases ih (pos + 1) acc' g' i b h' with hacc | ⟨hle, hget, hsz2⟩
      · exact Or.inl hacc
      · refine Or.inr ⟨by omega, ?_, hsz2⟩
        have hip : i - pos = (i - (pos + 1)) + 1 := by omega
        rw [hip, List.getElem?_cons_succ]
        exact hget
    by_cases hsz : x.size < req
    · simp only [chooseAux, if_pos hsz] at h
      exact fromRest _ _ h
    · have hxs : req ≤ x.size := by omega
      have selfOr : ∀ g', chooseAux req rest (pos + 1) (some (pos, x)) g' = some (i, b) →
          pos ≤ i ∧ (x :: rest)[i - pos]? = some b ∧ req ≤ b.size := by
        intro g' h'
        rcases fromRest _ _ h' with hacc | hr
        · injection hacc with hpair
          simp only [Prod.mk.injEq] at hpair
          obtain ⟨rfl, rfl⟩ := hpair
          exact ⟨le_refl _, by simp [Nat.sub_self], hxs⟩
        · exact hr
      cases acc with
      | none =>
        simp only [chooseAux, if_neg hsz] at h
        exact Or.inr (selfOr _ h)
      | some c =>
        simp only [chooseAux, if_neg hsz] at h
        by_cases hgt : g > x.size - req
        · rw [if_pos hgt] at h
          exact Or.inr (selfOr _ h)
        · rw [if_neg hgt] at h
          exact fromRest _ _ h

/-- Minimality of the best-fit scan: the returned block has a leftover gap
no larger than any candidate of the scanned suffix, strictly smaller than
any earlier-adopted accumulator it replaced, and on equal gaps the earlier
position wins. -/
theorem chooseAux_min (req : Nat) :
    ∀ (l : List MemBlock) (pos : Nat) (acc : Option (Nat × MemBlock)) (g : Nat),
      (∀ j c, acc = some (j, c) → g = c.size - req ∧ req ≤ c.size ∧ j < pos) →
      ∀ (i : Nat) (b : MemBlock),
        chooseAux req l pos acc g = some (i, b) →
        req ≤ b.size ∧
        (∀ k b', l[k]? = some b' → req ≤ b'.size →
          b.size - req < b'.size - req ∨
          (b.size - req = b'.size - req ∧ i ≤ pos + k)) ∧
        (∀ j c, acc = some (j, c) →
          b.size - req < c.size - req ∨ (i = j ∧ b = c)) := by
  intro l
  induction l with
  | nil =>
    intro pos acc g hacc i b h
    simp only [chooseAux] at h
    obtain ⟨hg, hsz, -⟩ := hacc i b h
    refine ⟨hsz, ?_, ?_⟩
    · intro k b' hk
      simp at hk
    · intro j c hjc
      rw [h] at hjc
      injection hjc with hpair
      simp only [Prod.mk.injEq] at hpair
      obtain ⟨rfl, rfl⟩ := hpair
      exact Or.inr ⟨rfl, rfl⟩
  | cons x rest ih =>
    intro pos acc g hacc i b h
    by_cases hsz : x.size < req
    · simp only [chooseAux, if_pos hsz] at h
      have hacc' : ∀ j c, acc = some (j, c) →
          g = c.size - req ∧ req ≤ c.size ∧ j < pos + 1 := by
        intro j c hc
        obtain ⟨h1, h2, h3⟩ := hacc j c hc
        exact ⟨h1, h2, by omega⟩
      obtain ⟨hb, hP1, hP2⟩ := ih (pos + 1) acc g hacc' i b h
      refine ⟨hb, ?_, hP2⟩
      intro k b' hk hk2
      cases k with
      | zero =>
        simp only [List.getElem?_cons_zero, Option.some.injEq] at hk
        subst hk
        exact absurd hk2 (by omega)
      | succ k' =>
        rw [List.getElem?_cons_succ] at hk
        rcases hP1 k' b' hk hk2 with h1 | ⟨h1, h2⟩
        · exact Or.inl h1
        · exact Or.inr ⟨h1, by omega⟩
    · have hxs : req ≤ x.size := by omega
      have adopt :
          chooseAux req rest (pos + 1) (some (pos, x)) (x.size - req) = some (i, b) →
          req ≤ b.size ∧
          (∀ k b', (x :: rest)[k]? = some b' → req ≤ b'.size →
            b.size - req < b'.size - req ∨
            (b.size - req = b'.size - req ∧ i ≤ pos + k)) ∧
          (b.size - req < x.size - req ∨ (i = pos ∧ b = x)) := by
        intro h'
        have hacc' : ∀ j c, (some (pos, x) : Option (Nat × MemBlock)) = some (j, c) →
            x.size - req = c.size - req ∧ req ≤ c.size ∧ j < pos + 1 := by
          intro j c hc
          injection hc with hpair
          simp only [Prod.mk.injEq] at hpair
          obtain ⟨rfl, rfl⟩ := hpair
          exact ⟨rfl, hxs, by omega⟩
        obtain ⟨hb, hP1, hP2⟩ := ih (pos + 1) (some (pos, x)) (x.size - req) hacc' i b h'
        have hvx := hP2 pos x rfl
        refine ⟨hb, ?_, hvx⟩
        intro k b' hk hk2
        cases k with
        | zero =>
          simp only [List.getElem?_cons_zero, Option.some.injEq] at hk
          subst hk
          rcases hvx with h1 | ⟨h1, h2⟩
          · exact Or.inl h1
          · subst h2
            exact Or.inr ⟨rfl, by omega⟩
        | succ k' =>
          rw [List.getElem?_cons_succ] at hk
          rcases hP1 k' b' hk hk2 with h1 | ⟨h1, h2⟩
          · exact Or.inl h1
          · exact Or.inr ⟨h1, by omega⟩
      cases acc with
      | none =>
        simp only [chooseAux, if_neg hsz] at h
        obtain ⟨hb, hP1, -⟩ := adopt h
        refine ⟨hb, hP1, ?_⟩
        intro j c hc
        exact absurd hc (by simp)
      | some c0 =>
        obtain ⟨j0, cb0⟩ := c0
        obtain ⟨hg0, hc0sz, hc0pos⟩ := hacc j0 cb0 rfl
        simp only [chooseAux, if_neg hsz] at h
        by_cases hgt : g > x.size - req
        · rw [if_pos hgt] at h
          obtain ⟨hb, hP1, hP2⟩ := adopt h
          refine ⟨hb, hP1, ?_⟩
          intro j c hjc
          injection hjc with hpair
          simp only [Prod.mk.injEq] at hpair
          obtain ⟨rfl, rfl⟩ := hpair
          rcases hP2 with h1 | ⟨h1, h2⟩
          · left; omega
          · subst h2; left; omega
        · rw [if_neg hgt] at h
          have hacc' : ∀ j c, (some (j0, cb0) : Option (Nat × MemBlock)) = some (j, c) →
              g = c.size - req ∧ req ≤ c.size ∧ j < pos + 1 := by
            intro j c hc
            injection hc with hpair
            simp only [Prod.mk.injEq] at hpair
            obtain ⟨rfl, rfl⟩ := hpair
            exact ⟨hg0, hc0sz, by omega⟩
          obtain ⟨hb, hP1, hP2⟩ := ih (pos + 1) (some (j0, cb0)) g hacc' i b h
          have hvc := hP2 j0 cb0 rfl
          refine ⟨hb, ?_, ?_⟩
          · intro k b' hk hk2
            cases k with
            | zero =>
              simp only [List.getElem?_cons_zero, Option.some.injEq] at hk
              subst hk
              rcases hvc with h1 | ⟨h1, h2⟩
              · left; omega
              · subst h2
                by_cases hlt : b.size - req < x.size - req
                · exact Or.inl hlt
                · exact Or.inr ⟨by omega, by omega⟩
            | succ k' =>
              rw [List.getElem?_cons_succ] at hk
              rcases hP1 k' b' hk hk2 with h1 | ⟨h1, h2⟩
              · exact Or.inl h1
              · exact Or.inr ⟨h1, by omega⟩
          · intro j c hjc
            injection hjc with hpair
            simp only [Prod.mk.injEq] at hpair
            obtain ⟨rfl, rfl⟩ := hpair
            exact hvc

/-- C1: best-fit allocation.  On a free list sorted by ascending start
offset, a successful allocation of `req` returns a block carved from the
low end of a free block `b` that minimises the leftover `b.size - req`
over all sufficiently large blocks, ties going to the lowest start offset;
the chosen block's start advances by `req` and its size shrinks by `req`.
When no free block is large enough, the call fails (returning `none`, the
free list untouched). -/
theorem C1_best_fit_allocation (req : Nat) (free : List MemBlock)
    (hsorted : free.Pairwise (fun a b => a.index ≤ b.index)) :
    (∀ blk free', allocator_find_best_fit req free = some (blk, free') →
      ∃ i b, free[i]? = some b ∧ req ≤ b.size ∧ blk = ⟨b.index, req⟩ ∧
        free' = free.set i ⟨b.index + req, b.size - req⟩ ∧
        ∀ b' ∈ free, req ≤ b'.size →
          b.size - req < b'.size - req ∨
          (b.size - req = b'.size - req ∧ b.index ≤ b'.index)) ∧
    (allocator_find_best_fit req free = none → ∀ b ∈ free, b.size < req) := by
  constructor
  · intro blk free' hal
    unfold allocator_find_best_fit at hal
    cases hch : chooseAux req free 0 none 0 with
    | none =>
      rw [hch] at hal
      exact absurd hal (by simp)
    | some ib =>
      obtain ⟨i, b⟩ := ib
      rw [hch] at hal
      simp only [Option.some.injEq, Prod.mk.injEq] at hal
      obtain ⟨hblk, hfree'⟩ := hal
      rcases chooseAux_sound req free 0 none 0 i b hch with hacc | ⟨-, hget, hbsz⟩
      · exact absurd hacc (by simp)
      · have hget0 : free[i]? = some b := by simpa using hget
        obtain ⟨-, hP1, -⟩ := chooseAux_min req free 0 none 0
          (by intro j c hc; exact absurd hc (by simp)) i b hch
        refine ⟨i, b, hget0, hbsz, hblk.symm, hfree'.symm, ?_⟩
        intro b' hb' hb'sz
        obtain ⟨k, hk⟩ := List.mem_iff_getElem?.mp hb'
        rcases hP1 k b' hk hb'sz with h1 | ⟨h1, h2⟩
        · exact Or.inl h1
        · refine Or.inr ⟨h1, ?_⟩
          rcases Nat.lt_or_ge i k with hlt | hge
          · obtain ⟨hkl, hke⟩ := List.getElem?_eq_some_iff.mp hk
            obtain ⟨hil, hie⟩ := List.getElem?_eq_some_iff.mp hget0
            have hpw := List.pairwise_iff_getElem.mp hsorted i k hil hkl hlt
            rw [hie, hke] at hpw
            exact hpw
          · have hik : i = k := by omega
            subst hik
            rw [hget0] at hk
            injection hk with hk'
            rw [hk']
  · intro hal b hb
    unfold allocator_find_best_fit at hal
    cases hch : chooseAux req free 0 none 0 with
    | none => exact (chooseAux_eq_none req free 0 none 0 hch).2 b hb
    | some ib =>
      obtain ⟨i2, b2⟩ := ib
      rw [hch] at hal
      exact absurd hal (by simp)

/-- Witness for C1: a concrete sorted free list with one exact minimiser. -/
theorem C1_best_fit_allocation_witness :
    ([⟨0, 3⟩, ⟨10, 8⟩, ⟨30, 6⟩] : List MemBlock).Pairwise
      (fun a b => a.index ≤ b.index) ∧
    ((∀ blk free',
        allocator_find_best_fit 5 [⟨0, 3⟩, ⟨10, 8⟩, ⟨30, 6⟩] = some (blk, free') →
        ∃ i b, ([⟨0, 3⟩, ⟨10, 8⟩, ⟨30, 6⟩] : List MemBlock)[i]? = some b ∧
          5 ≤ b.size ∧ blk = ⟨b.index, 5⟩ ∧
          free' = ([⟨0, 3⟩, ⟨10, 8⟩, ⟨30, 6⟩] : List MemBlock).set i
            ⟨b.index + 5, b.size - 5⟩ ∧
          ∀ b' ∈ ([⟨0, 3⟩, ⟨10, 8⟩, ⟨30, 6⟩] : List MemBlock), 5 ≤ b'.size →
            b.size - 5 < b'.size - 5 ∨
            (b.size - 5 = b'.size - 5 ∧ b.index ≤ b'.index)) ∧
      (allocator_find_best_fit 5 [⟨0, 3⟩, ⟨10, 8⟩, ⟨30, 6⟩] = none →
        ∀ b ∈ ([⟨0, 3⟩, ⟨10, 8⟩, ⟨30, 6⟩] : List MemBlock), b.size < 5)) :=
  ⟨by decide, C1_best_fit_allocation 5 [⟨0, 3⟩, ⟨10, 8⟩, ⟨30, 6⟩] (by decide)⟩

/-! ## C4: shortest-job-first selection -/

/-- `strcmp` reports equality exactly on equal character lists. -/
theorem strcmpAux_eq_zero_iff : ∀ a b : List Char, strcmpAux a b = 0 ↔ a = b := by
  intro a
  induction a with
  | nil =>
    intro b
    cases b <;> simp [strcmpAux]
  | cons x xs ih =>
    intro b
    cases b with
    | nil => simp [strcmpAux]
    | cons y ys =>
      simp only [strcmpAux]
      by_cases h1 : x < y
      · rw [if_pos h1]
        refine iff_of_false (by decide) ?_
        intro heq
        injection heq with hx _
        subst hx
        exact absurd h1 (lt_irrefl x)
      · by_cases h2 : y < x
        · rw [if_neg h1, if_pos h2]
          refine iff_of_false (by decide) ?_
          intro heq
          injection heq with hx _
          subst hx
          exact absurd h2 (lt_irrefl x)
        · rw [if_neg h1, if_neg h2]
          have hxy : x = y := le_antisymm (not_lt.mp h2) (not_lt.mp h1)
          subst hxy
          rw [ih ys]
          simp

/-- `strcmp` is antisymmetric in sign. -/
theorem strcmpAux_antisymm : ∀ a b : List Char, strcmpAux b a = -strcmpAux a b := by
  intro a
  induction a with
  | nil =>
    intro b
    cases b <;> simp [strcmpAux]
  | cons x xs ih =>
    intro b
    cases b with
    | nil => simp [strcmpAux]
    | cons y ys =>
      simp only [strcmpAux]
      by_cases h1 : x < y
      · have h2 : ¬ y < x := lt_asymm h1
        simp [if_pos h1, if_neg h2]
      · by_cases h2 : y < x
        · simp [if_neg h1, if_pos h2]
        · simp only [if_neg h1, if_neg h2]
          exact ih ys

/-- Negative `strcmp` results compose transitively. -/
theorem strcmpAux_lt_trans :
    ∀ a b c : List Char, strcmpAux a b < 0 → strcmpAux b c < 0 → strcmpAux a c < 0 := by
  intro a
  induction a with
  | nil =>
    intro b c hab hbc
    cases c with
    | nil =>
      cases b <;> simp [strcmpAux] at hbc
    | cons z zs => simp [strcmpAux]
  | cons x xs ih =>
    intro b c hab hbc
    cases b with
    | nil => simp [strcmpAux] at hab
    | cons y ys =>
      cases c with
      | nil => simp [strcmpAux] at hbc
      | cons z zs =>
        simp only [strcmpAux] at hab hbc ⊢
        by_cases h1 : x < y
        · by_cases h2 : y < z
          · rw [if_pos (lt_trans h1 h2)]
            decide
          · by_cases h3 : z < y
            · rw [if_neg h2, if_pos h3] at hbc
              exact absurd hbc (by decide)
            · have hyz : y = z := le_antisymm (not_lt.mp h3) (not_lt.mp h2)
              subst hyz
              rw [if_pos h1]
              decide
        · rw [if_neg h1] at hab
          by_cases h2 : y < x
          · rw [if_pos h2] at hab
            exact absurd hab (by decide)
          · rw [if_neg h2] at hab
            have hxy : x = y := le_antisymm (not_lt.mp h2) (not_lt.mp h1)
            subst hxy
            by_cases h3 : x < z
            · rw [if_pos h3]
              decide
            · rw [if_neg h3] at hbc ⊢
              by_cases h4 : z < x
              · rw [if_pos h4] at hbc
                exact absurd hbc (by decide)
              · rw [if_neg h4] at hbc ⊢
                exact ih ys zs hab hbc

/-- The scheduling priority is irreflexive. -/
theorem jobBefore_irrefl (a : Proc) : ¬ jobBefore a a := by
  unfold jobBefore strcmp
  have h0 : strcmpAux a.prog.name.data a.prog.name.data = 0 :=
    (strcmpAux_eq_zero_iff _ _).mpr rfl
  omega

/-- The scheduling priority is transitive. -/
theorem jobBefore_trans {a b c : Proc} (hab : jobBefore a b) (hbc : jobBefore b c) :
    jobBefore a c := by
  unfold jobBefore strcmp at *
  rcases hab with h1 | ⟨hs1, h1⟩
  · rcases hbc with h2 | ⟨hs2, h2⟩
    · exact Or.inl (by omega)
    · exact Or.inl (by omega)
  · rcases hbc with h2 | ⟨hs2, h2⟩
    · exact Or.inl (by omega)
    · refine Or.inr ⟨by omega, ?_⟩
      rcases h1 with h1 | ⟨ha1, h1⟩
      · rcases h2 with h2 | ⟨ha2, h2⟩
        · exact Or.inl (by omega)
        · exact Or.inl (by omega)
      · rcases h2 with h2 | ⟨ha2, h2⟩
        · exact Or.inl (by omega)
        · exact Or.inr ⟨by omega, strcmpAux_lt_trans _ _ _ h1 h2⟩

/-- The scheduling priority is asymmetric. -/
theorem jobBefore_asymm {a b : Proc} (hab : jobBefore a b) : ¬ jobBefore b a :=
  fun hba => jobBefore_irrefl a (jobBefore_trans hab hba)

/-- A process is either strictly before another or they agree on all three
scheduling keys, whenever the converse priority fails. -/
theorem jobBefore_total {b c : Proc} (h : ¬ jobBefore c b) :
    jobBefore b c ∨
      (b.prog.service_time = c.prog.service_time ∧
        b.prog.time_arrived = c.prog.time_arrived ∧
        b.prog.name.data = c.prog.name.data) := by
  unfold jobBefore strcmp at *
  rcases Nat.lt_trichotomy b.prog.service_time c.prog.service_time with hs | hs | hs
  · exact Or.inl (Or.inl hs)
  · rcases Nat.lt_trichotomy b.prog.time_arrived c.prog.time_arrived with ha | ha | ha
    · exact Or.inl (Or.inr ⟨hs, Or.inl ha⟩)
    · rcases Int.lt_trichotomy (strcmpAux b.prog.name.data c.prog.name.data) 0 with
        hn | hn | hn
      · exact Or.inl (Or.inr ⟨hs, Or.inr ⟨ha, hn⟩⟩)
      · exact Or.inr ⟨hs, ha, (strcmpAux_eq_zero_iff _ _).mp hn⟩
      · exfalso
        apply h
        refine Or.inr ⟨hs.symm, Or.inr ⟨ha.symm, ?_⟩⟩
        rw [strcmpAux_antisymm b.prog.name.data c.prog.name.data]
        omega
    · exact absurd (Or.inr ⟨hs.symm, Or.inl ha⟩) h
  · exact absurd (Or.inl hs) h

/-- Replacing the right argument with an equal-keyed process preserves the
priority relation. -/
theorem jobBefore_congr_right {a b c : Proc}
    (hs : b.prog.service_time = c.prog.service_time)
    (ha : b.prog.time_arrived = c.prog.time_arrived)
    (hn : b.prog.name.data = c.prog.name.data) :
    jobBefore a b ↔ jobBefore a c := by
  unfold jobBefore strcmp
  rw [hs, ha, hn]

/-- A process before an exhausted competitor is before anything the
competitor is not after. -/
theorem jobBefore_of_before_of_not_before {a b c : Proc}
    (hab : jobBefore a b) (h : ¬ jobBefore c b) : jobBefore a c := by
  rcases jobBefore_total h with hbc | ⟨hs, ha, hn⟩
  · exact jobBefore_trans hab hbc
  · exact (jobBefore_congr_right hs ha hn).mp hab

/-- The SJF scan returns nothing only when the ready list is empty and no
node had been chosen. -/
theorem sjfAux_eq_none :
    ∀ (l : List Proc) (pos : Nat) (acc : Option (Nat × Proc)) (mt : Nat),
      sjfAux l pos acc mt = none → acc = none ∧ l = [] := by
  intro l
  induction l with
  | nil =>
    intro pos acc mt h
    exact ⟨h, rfl⟩
  | cons p rest ih =>
    intro pos acc mt h
    exfalso
    cases acc with
    | none =>
      simp only [sjfAux] at h
      obtain ⟨ha, -⟩ := ih _ _ _ h
      exact absurd ha (by simp)
    | some c =>
      simp only [sjfAux] at h
      split_ifs at h <;>
        · obtain ⟨ha, -⟩ := ih _ _ _ h
          exact absurd ha (by simp)

/-- The node returned by the SJF scan is the accumulator or a node of the
scanned list, reported at its position. -/
theorem sjfAux_sound :
    ∀ (l : List Proc) (pos : Nat) (acc : Option (Nat × Proc)) (mt : Nat)
      (i : Nat) (b : Proc),
      sjfAux l pos acc mt = some (i, b) →
      acc = some (i, b) ∨ (pos ≤ i ∧ l[i - pos]? = some b) := by
  intro l
  induction l with
  | nil =>
    intro pos acc mt i b h
    exact Or.inl h
  | cons p rest ih =>
    intro pos acc mt i b h
    have fromRest : ∀ (acc' : Option (Nat × Proc)) (mt' : Nat),
        sjfAux rest (pos + 1) acc' mt' = some (i, b) →
        acc' = some (i, b) ∨ (pos ≤ i ∧ (p :: rest)[i - pos]? = some b) := by
      intro acc' mt' h'
      rcases ih (pos + 1) acc' mt' i b h' with hacc | ⟨hle, hget⟩
      · exact Or.inl hacc
      · refine Or.inr ⟨by omega, ?_⟩
        have hip : i - pos = (i - (pos + 1)) + 1 := by omega
        rw [hip, List.getElem?_cons_succ]
        exact hget
    have selfOr : ∀ mt', sjfAux rest (pos + 1) (some (pos, p)) mt' = some (i, b) →
        pos ≤ i ∧ (p :: rest)[i - pos]? = some b := by
      intro mt' h'
      rcases fromRest _ _ h' with hacc | hr
      · injection hacc with hpair
        simp only [Prod.mk.injEq] at hpair
        obtain ⟨rfl, rfl⟩ := hpair
        exact ⟨le_refl _, by simp [Nat.sub_self]⟩
      · exact hr
    cases acc with
    | none =>
      simp only [sjfAux] at h
      exact Or.inr (selfOr _ h)
    | some c =>
      simp only [sjfAux] at h
      split_ifs at h
      · exact Or.inr (selfOr _ h)
      · exact fromRest _ _ h
      · exact Or.inr (selfOr _ h)
      · exact fromRest _ _ h
      · exact Or.inr (selfOr _ h)
      · exact fromRest _ _ h

/-- Minimality of the SJF scan: nothing in the scanned list is strictly
before the returned process, everything strictly before the returned
position is strictly after it (the first occurrence wins among exact
duplicates), and the accumulator is improved upon or returned as is. -/
theorem sjfAux_min :
    ∀ (l : List Proc) (pos : Nat) (acc : Option (Nat × Proc)) (mt : Nat),
      (∀ j c, acc = some (j, c) → mt = c.prog.service_time ∧ j < pos) →
      ∀ (i : Nat) (b : Proc),
        sjfAux l pos acc mt = some (i, b) →
        (∀ k b', l[k]? = some b' →
          ¬ jobBefore b' b ∧ (pos + k < i → jobBefore b b')) ∧
        (∀ j c, acc = some (j, c) → jobBefore b c ∨ (i = j ∧ b = c)) := by
  intro l
  induction l with
  | nil =>
    intro pos acc mt hacc i b h
    simp only [sjfAux] at h
    refine ⟨?_, ?_⟩
    · intro k b' hk
      simp at hk
    · intro j c hjc
      rw [h] at hjc
      injection hjc with hpair
      simp only [Prod.mk.injEq] at hpair
      obtain ⟨rfl, rfl⟩ := hpair
      exact Or.inr ⟨rfl, rfl⟩
  | cons p rest ih =>
    intro pos acc mt hacc i b h
    have adopt : sjfAux rest (pos + 1) (some (pos, p)) p.prog.service_time = some (i, b) →
        (∀ k b', (p :: rest)[k]? = some b' →
          ¬ jobBefore b' b ∧ (pos + k < i → jobBefore b b')) ∧
        (jobBefore b p ∨ (i = pos ∧ b = p)) := by
      intro h'
      have hacc' : ∀ j c, (some (pos, p) : Option (Nat × Proc)) = some (j, c) →
          p.prog.service_time = c.prog.service_time ∧ j < pos + 1 := by
        intro j c hc
        injection hc with hpair
        simp only [Prod.mk.injEq] at hpair
        obtain ⟨rfl, rfl⟩ := hpair
        exact ⟨rfl, by omega⟩
      obtain ⟨hP1, hP2⟩ := ih (pos + 1) (some (pos, p)) p.prog.service_time hacc' i b h'
      have hvp := hP2 pos p rfl
      refine ⟨?_, hvp⟩
      intro k b' hk
      cases k with
      | zero =>
        simp only [List.getElem?_cons_zero, Option.some.injEq] at hk
        subst hk
        constructor
        · rcases hvp with h1 | ⟨h1, h2⟩
          · exact jobBefore_asymm h1
          · subst h2
            exact jobBefore_irrefl _
        · intro hlt
          rcases hvp with h1 | ⟨h1, h2⟩
          · exact h1
          · exact absurd hlt (by omega)
      | succ k' =>
        rw [List.getElem?_cons_succ] at hk
        obtain ⟨h1, h2⟩ := hP1 k' b' hk
        exact ⟨h1, fun hlt => h2 (by omega)⟩
    cases acc with
    | none =>
      simp only [sjfAux] at h
      obtain ⟨hP1, -⟩ := adopt h
      refine ⟨hP1, ?_⟩
      intro j c hc
      exact absurd hc (by simp)
    | some c0p =>
      obtain ⟨j0, c0⟩ := c0p
      obtain ⟨hm, hj0⟩ := hacc j0 c0 rfl
      have adoptAll : jobBefore p c0 →
          sjfAux rest (pos + 1) (some (pos, p)) p.prog.service_time = some (i, b) →
          (∀ k b', (p :: rest)[k]? = some b' →
            ¬ jobBefore b' b ∧ (pos + k < i → jobBefore b b')) ∧
          (∀ j c, (some (j0, c0) : Option (Nat × Proc)) = some (j, c) →
            jobBefore b c ∨ (i = j ∧ b = c)) := by
        intro hpc h'
        obtain ⟨hP1, hP2⟩ := adopt h'
        refine ⟨hP1, ?_⟩
        intro j c hc
        injection hc with hpair
        simp only [Prod.mk.injEq] at hpair
        obtain ⟨rfl, rfl⟩ := hpair
        rcases hP2 with hbp | ⟨hi, hb⟩
        · exact Or.inl (jobBefore_trans hbp hpc)
        · subst hb
          exact Or.inl hpc
      have keep : ¬ jobBefore p c0 →
          sjfAux rest (pos + 1) (some (j0, c0)) mt = some (i, b) →
          (∀ k b', (p :: rest)[k]? = some b' →
            ¬ jobBefore b' b ∧ (pos + k < i → jobBefore b b')) ∧
          (∀ j c, (some (j0, c0) : Option (Nat × Proc)) = some (j, c) →
            jobBefore b c ∨ (i = j ∧ b = c)) := by
        intro hnpc h'
        have hacc' : ∀ j c, (some (j0, c0) : Option (Nat × Proc)) = some (j, c) →
            mt = c.prog.service_time ∧ j < pos + 1 := by
          intro j c hc
          injection hc with hpair
          simp only [Prod.mk.injEq] at hpair
          obtain ⟨rfl, rfl⟩ := hpair
          exact ⟨hm, by omega⟩
        obtain ⟨hP1, hP2⟩ := ih (pos + 1) (some (j0, c0)) mt hacc' i b h'
        have hvc := hP2 j0 c0 rfl
        refine ⟨?_, hP2⟩
        intro k b' hk
        cases k with
        | zero =>
          simp only [List.getElem?_cons_zero, Option.some.injEq] at hk
          subst hk
          constructor
          · intro hpb
            rcases hvc with h1 | ⟨h1, h2⟩
            · exact hnpc (jobBefore_trans hpb h1)
            · subst h2
              exact hnpc hpb
          · intro hlt
            rcases hvc with h1 | ⟨h1, h2⟩
            · exact jobBefore_of_before_of_not_before h1 hnpc
            · exact absurd hlt (by omega)
        | succ k' =>
          rw [List.getElem?_cons_succ] at hk
          obtain ⟨h1, h2⟩ := hP1 k' b' hk
          exact ⟨h1, fun hlt => h2 (by omega)⟩
      simp only [sjfAux] at h
      by_cases h1 : mt = p.prog.service_time
      · by_cases h2 : c0.prog.time_arrived = p.prog.time_arrived
        · by_cases h3 : strcmp c0.prog.name p.prog.name > 0
          · rw [if_pos h1, if_pos h2, if_pos h3] at h
            refine adoptAll ?_ h
            refine Or.inr ⟨by omega, Or.inr ⟨h2.symm, ?_⟩⟩
            unfold strcmp at h3 ⊢
            rw [strcmpAux_antisymm c0.prog.name.data p.prog.name.data]
            omega
          · rw [if_pos h1, if_pos h2, if_neg h3] at h
            refine keep ?_ h
            intro hp
            rcases hp with hs | ⟨hs, hp⟩
            · omega
            · rcases hp with hay | ⟨hay, hnm⟩
              · omega
              · apply h3
                unfold strcmp at hnm ⊢
                rw [strcmpAux_antisymm p.prog.name.data c0.prog.name.data]
                omega
        · by_cases h4 : c0.prog.time_arrived > p.prog.time_arrived
          · rw [if_pos h1, if_neg h2, if_pos h4] at h
            exact adoptAll (Or.inr ⟨by omega, Or.inl (by omega)⟩) h
          · rw [if_pos h1, if_neg h2, if_neg h4] at h
            refine keep ?_ h
            intro hp
            rcases hp with hs | ⟨hs, hp⟩
            · omega
            · rcases hp with hay | ⟨hay, hnm⟩ <;> omega
      · by_cases h5 : mt > p.prog.service_time
        · rw [if_neg h1, if_pos h5] at h
          exact adoptAll (Or.inl (by omega)) h
        · rw [if_neg h1, if_neg h5] at h
          refine keep ?_ h
          intro hp
          rcases hp with hs | ⟨hs, hp⟩ <;> omega

/-- C4: for a non-empty ready queue, `shortest_job_first` returns the
process with minimum total service time, ties broken by earliest arrival
then lexicographically smallest name, the first occurrence in queue order
winning among exact duplicates, and `switch_process` removes exactly that
entry from the ready queue (starting it running). -/
theorem C4_sjf_selection (ready : List Proc) (hne : ready ≠ []) :
    ∃ i b, shortest_job_first ready = some (i, b) ∧ ready[i]? = some b ∧
      (∀ b' ∈ ready, ¬ jobBefore b' b) ∧
      (∀ k b', ready[k]? = some b' → k < i → jobBefore b b') ∧
      switch_process .SJF ready =
        (some { b with state := .RUNNING }, ready.eraseIdx i) := by
  cases hch : shortest_job_first ready with
  | none =>
    exfalso
    obtain ⟨-, hl⟩ := sjfAux_eq_none ready 0 none 0 hch
    exact hne hl
  | some ib =>
    obtain ⟨i, b⟩ := ib
    rcases sjfAux_sound ready 0 none 0 i b hch with hacc | ⟨-, hget⟩
    · exact absurd hacc (by simp)
    · have hget0 : ready[i]? = some b := by simpa using hget
      obtain ⟨hP1, -⟩ := sjfAux_min ready 0 none 0
        (by intro j c hc; exact absurd hc (by simp)) i b hch
      refine ⟨i, b, rfl, hget0, ?_, ?_, ?_⟩
      · intro b' hb'
        obtain ⟨k, hk⟩ := List.mem_iff_getElem?.mp hb'
        exact (hP1 k b' hk).1
      · intro k b' hk hki
        exact (hP1 k b' hk).2 (by omega)
      · simp [switch_process, hch]

/-- Witness for C4: two processes tied on service time and arrival; the
lexicographically smaller name is selected from position 1 and removed. -/
theorem C4_sjf_selection_witness :
    ([⟨⟨"B", 0, 5, 0⟩, 0, .READY, none⟩, ⟨⟨"A", 0, 5, 0⟩, 0, .READY, none⟩] :
        List Proc) ≠ [] ∧
    (∃ i b, shortest_job_first
        [⟨⟨"B", 0, 5, 0⟩, 0, .READY, none⟩, ⟨⟨"A", 0, 5, 0⟩, 0, .READY, none⟩] =
          some (i, b) ∧
      ([⟨⟨"B", 0, 5, 0⟩, 0, .READY, none⟩,
        ⟨⟨"A", 0, 5, 0⟩, 0, .READY, none⟩] : List Proc)[i]? = some b ∧
      (∀ b' ∈ ([⟨⟨"B", 0, 5, 0⟩, 0, .READY, none⟩,
        ⟨⟨"A", 0, 5, 0⟩, 0, .READY, none⟩] : List Proc), ¬ jobBefore b' b) ∧
      (∀ k b', ([⟨⟨"B", 0, 5, 0⟩, 0, .READY, none⟩,
        ⟨⟨"A", 0, 5, 0⟩, 0, .READY, none⟩] : List Proc)[k]? = some b' →
        k < i → jobBefore b b') ∧
      switch_process .SJF
        [⟨⟨"B", 0, 5, 0⟩, 0, .READY, none⟩, ⟨⟨"A", 0, 5, 0⟩, 0, .READY, none⟩] =
        (some { b with state := .RUNNING },
          ([⟨⟨"B", 0, 5, 0⟩, 0, .READY, none⟩,
            ⟨⟨"A", 0, 5, 0⟩, 0, .READY, none⟩] : List Proc).eraseIdx i)) :=
  ⟨by decide,
   C4_sjf_selection
     [⟨⟨"B", 0, 5, 0⟩, 0, .READY, none⟩, ⟨⟨"A", 0, 5, 0⟩, 0, .READY, none⟩]
     (by decide)⟩

/-! ## C3 and C10: allocator invariants over alloc/release interleavings -/

/-- Membership in a block's cells is exactly lying in its interval. -/
theorem mem_cells {a : Nat} {b : MemBlock} :
    a ∈ cells b ↔ b.index ≤ a ∧ a < b.index + b.size := by
  unfold cells
  simp only [Multiset.mem_map, Multiset.mem_range]
  constructor
  · rintro ⟨x, hx, rfl⟩
    omega
  · intro ⟨h1, h2⟩
    exact ⟨a - b.index, by omega, by omega⟩

/-- Carving `req` cells from the low end of a block splits its cells. -/
theorem cells_split (idx req size : Nat) (h : req ≤ size) :
    cells ⟨idx, req⟩ + cells ⟨idx + req, size - req⟩ = cells ⟨idx, size⟩ := by
  obtain ⟨d, rfl⟩ : ∃ d, size = req + d := ⟨size - req, by omega⟩
  have hd : req + d - req = d := by omega
  unfold cells
  simp only [hd]
  rw [Multiset.range_add, Multiset.map_add, Multiset.map_map]
  congr 1
  apply Multiset.map_congr rfl
  intro x _
  simp [Function.comp, Nat.add_assoc]

/-- `cellsSum` distributes over list concatenation. -/
theorem cellsSum_append (l₁ l₂ : List MemBlock) :
    cellsSum (l₁ ++ l₂) = cellsSum l₁ + cellsSum l₂ := by
  induction l₁ with
  | nil => simp [cellsSum]
  | cons x rest ih =>
    show cells x + cellsSum (rest ++ l₂) = cells x + cellsSum rest + cellsSum l₂
    rw [ih, add_assoc]

/-- Every member block's cells are contained in the total. -/
theorem cells_le_cellsSum {y : MemBlock} : ∀ {l : List MemBlock}, y ∈ l →
    cells y ≤ cellsSum l := by
  intro l
  induction l with
  | nil => intro h; simp at h
  | cons x rest ih =>
    intro h
    rcases List.mem_cons.mp h with rfl | h
    · exact Multiset.le_add_right _ _
    · calc cells y ≤ cellsSum rest := ih h
        _ ≤ cells x + cellsSum rest := Multiset.le_add_left _ _

/-- Replacing the block at a position exchanges its cells in the total. -/
theorem cellsSum_set : ∀ (l : List MemBlock) (i : Nat) (b x : MemBlock),
    l[i]? = some b →
    cellsSum (l.set i x) + cells b = cellsSum l + cells x := by
  intro l
  induction l with
  | nil =>
    intro i b x h
    simp at h
  | cons y rest ih =>
    intro i b x h
    cases i with
    | zero =>
      simp only [List.getElem?_cons_zero, Option.some.injEq] at h
      subst h
      show cells x + cellsSum rest + cells y = cells y + cellsSum rest + cells x
      abel
    | succ i' =>
      rw [List.getElem?_cons_succ] at h
      show cells y + cellsSum (rest.set i' x) + cells b =
        cells y + cellsSum rest + cells x
      rw [add_assoc, ih i' b x h, add_assoc]

/-- Sorted reinsertion adds exactly the released block's cells. -/
theorem cellsSum_insert_sorted (b : MemBlock) :
    ∀ l : List MemBlock, cellsSum (list_insert_sorted b l) = cells b + cellsSum l := by
  intro l
  induction l with
  | nil => rfl
  | cons c rest ih =>
    simp only [list_insert_sorted]
    split
    · show cells c + cellsSum (list_insert_sorted b rest) =
        cells b + (cells c + cellsSum rest)
      rw [ih]
      abel
    · rfl

/-- The adjacency pass preserves the covered cells. -/
theorem cellsSum_coalesceGo : ∀ (l : List MemBlock) (cur : MemBlock),
    cellsSum (coalesceGo cur l) = cells cur + cellsSum l := by
  intro l
  induction l with
  | nil =>
    intro cur
    show cells cur + 0 = cells cur + 0
    rfl
  | cons b2 rest ih =>
    intro cur
    simp only [coalesceGo]
    split
    · rename_i heq
      rw [ih]
      have hsplit := cells_split cur.index cur.size (cur.size + b2.size) (by omega)
      have h1 : (⟨cur.index, cur.size⟩ : MemBlock) = cur := rfl
      have h2 : cur.size + b2.size - cur.size = b2.size := by omega
      have h3 : (⟨cur.index + cur.size, cur.size + b2.size - cur.size⟩ : MemBlock) = b2 := by
        rw [h2, heq]
      rw [h1, h3] at hsplit
      show cells ⟨cur.index, cur.size + b2.size⟩ + cellsSum rest =
        cells cur + (cells b2 + cellsSum rest)
      rw [← hsplit]
      abel
    · show cells cur + cellsSum (coalesceGo b2 rest) =
        cells cur + (cells b2 + cellsSum rest)
      rw [ih]

/-- The full release path preserves cells: insert, then coalesce. -/
theorem cellsSum_free_memory (b : MemBlock) (free : List MemBlock) :
    cellsSum (allocater_free_memory b free) = cells b + cellsSum free := by
  unfold allocater_free_memory
  cases hins : list_insert_sorted b free with
  | nil => exact absurd hins (list_insert_sorted_ne_nil b free)
  | cons c l' =>
    show cellsSum (coalesceGo c l') = _
    rw [cellsSum_coalesceGo]
    have : cells c + cellsSum l' = cellsSum (list_insert_sorted b free) := by
      rw [hins]; rfl
    rw [this, cellsSum_insert_sorted]

/-- A successful allocation replaces the chosen block in place: the granted
block is carved from its low end. -/
theorem find_best_fit_spec (req : Nat) (free : List MemBlock) (blk : MemBlock)
    (free' : List MemBlock)
    (hal : allocator_find_best_fit req free = some (blk, free')) :
    ∃ i b, free[i]? = some b ∧ req ≤ b.size ∧ blk = ⟨b.index, req⟩ ∧
      free' = free.set i ⟨b.index + req, b.size - req⟩ := by
  unfold allocator_find_best_fit at hal
  cases hch : chooseAux req free 0 none 0 with
  | none =>
    rw [hch] at hal
    exact absurd hal (by simp)
  | some ib =>
    obtain ⟨i, b⟩ := ib
    rw [hch] at hal
    simp only [Option.some.injEq, Prod.mk.injEq] at hal
    obtain ⟨hblk, hfree'⟩ := hal
    rcases chooseAux_sound req free 0 none 0 i b hch with hacc | ⟨-, hget, hbsz⟩
    · exact absurd hacc (by simp)
    · exact ⟨i, b, by simpa using hget, hbsz, hblk.symm, hfree'.symm⟩

/-- The multiset of covered cells of free plus owned blocks is invariant:
every reachable allocator state covers exactly the cells of the pool. -/
theorem allocReach_cells (s : AllocState) (h : AllocReach s) :
    cellsSum s.free + cellsSum s.owned = Multiset.range BUFFER_SIZE := by
  induction h with
  | init =>
    show cells ⟨0, BUFFER_SIZE⟩ + 0 + 0 = Multiset.range BUFFER_SIZE
    unfold cells
    rw [Multiset.map_congr rfl (fun x _ => Nat.zero_add x), Multiset.map_id']
    simp
  | alloc req hre hal ih =>
    rename_i s blk free'
    obtain ⟨i, b, hget, hsz, hblk, hf'⟩ := find_best_fit_spec req s.free blk free' hal
    show cellsSum free' + cellsSum (s.owned ++ [blk]) = _
    rw [cellsSum_append]
    have hone : cellsSum [blk] = cells blk := by
      show cells blk + 0 = cells blk
      rw [add_zero]
    rw [hone]
    have hset := cellsSum_set s.free i b ⟨b.index + req, b.size - req⟩ hget
    rw [← hf'] at hset
    have hsplit := cells_split b.index req b.size hsz
    have hfree : cellsSum free' + cells blk = cellsSum s.free := by
      apply add_right_cancel (b := cells b)
      calc cellsSum free' + cells blk + cells b
          = cellsSum free' + cells b + cells blk := by abel
        _ = cellsSum s.free + cells ⟨b.index + req, b.size - req⟩ + cells blk := by
            rw [hset]
        _ = cellsSum s.free +
            (cells blk + cells ⟨b.index + req, b.size - req⟩) := by abel
        _ = cellsSum s.free + cells b := by
            rw [hblk, hsplit]
    calc cellsSum free' + (cellsSum s.owned + cells blk)
        = cellsSum free' + cells blk + cellsSum s.owned := by abel
      _ = cellsSum s.free + cellsSum s.owned := by rw [hfree]
      _ = Multiset.range BUFFER_SIZE := ih
  | release o₁ o₂ b hre heq ih =>
    rename_i s
    show cellsSum (allocater_free_memory b s.free) + cellsSum (o₁ ++ o₂) = _
    rw [cellsSum_free_memory, cellsSum_append]
    rw [heq] at ih
    rw [cellsSum_append] at ih
    have : cellsSum (b :: o₂) = cells b + cellsSum o₂ := rfl
    rw [this] at ih
    calc cells b + cellsSum s.free + (cellsSum o₁ + cellsSum o₂)
        = cellsSum s.free + (cellsSum o₁ + (cells b + cellsSum o₂)) := by abel
      _ = Multiset.range BUFFER_SIZE := ih

/-- Duplicate-free totals force pairwise non-overlap. -/
theorem pairwise_not_overlap_of_nodup :
    ∀ l : List MemBlock, (cellsSum l).Nodup →
      l.Pairwise (fun a b => ¬ Overlap a b) := by
  intro l
  induction l with
  | nil => intro _; exact List.Pairwise.nil
  | cons x rest ih =>
    intro hnd
    have hnd' : (cells x + cellsSum rest).Nodup := hnd
    rw [Multiset.nodup_add] at hnd'
    obtain ⟨h1, h2, h3⟩ := hnd'
    refine List.Pairwise.cons ?_ (ih h2)
    intro y hy hov
    have hm : max x.index y.index ∈ cells x := by
      rw [mem_cells]
      unfold Overlap at hov
      omega
    have hm' : max x.index y.index ∈ cells y := by
      rw [mem_cells]
      unfold Overlap at hov
      omega
    exact Multiset.disjoint_left.mp h3 hm
      (Multiset.mem_of_le (cells_le_cellsSum hy) hm')

/-- C3: in every reachable allocator state, the sizes of the free blocks
plus the sizes of the blocks owned by non-finished processes sum to the
pool capacity 2048, and no two of all these blocks overlap (share a memory
address). -/
theorem C3_conservation_and_no_overlap (s : AllocState) (h : AllocReach s) :
    (s.free.map MemBlock.size).sum + (s.owned.map MemBlock.size).sum = BUFFER_SIZE ∧
    (s.free ++ s.owned).Pairwise (fun a b => ¬ Overlap a b) := by
  have hinv := allocReach_cells s h
  have hcards : ∀ l : List MemBlock,
      Multiset.card (cellsSum l) = (l.map MemBlock.size).sum := by
    intro l
    induction l with
    | nil => rfl
    | cons x rest ih =>
      show Multiset.card (cells x + cellsSum rest) = x.size + (rest.map MemBlock.size).sum
      rw [Multiset.card_add, ih]
      unfold cells
      rw [Multiset.card_map, Multiset.card_range]
  constructor
  · have hcard := congrArg Multiset.card hinv
    rw [Multiset.card_add, hcards, hcards, Multiset.card_range] at hcard
    exact hcard
  · apply pairwise_not_overlap_of_nodup
    rw [cellsSum_append, hinv]
    exact Multiset.nodup_range BUFFER_SIZE

/-- Witness for C3: the state after one successful allocation. -/
theorem C3_conservation_and_no_overlap_witness :
    AllocReach ⟨[⟨100, 1948⟩], [⟨0, 100⟩]⟩ ∧
    ((([⟨100, 1948⟩] : List MemBlock).map MemBlock.size).sum +
        (([⟨0, 100⟩] : List MemBlock).map MemBlock.size).sum = BUFFER_SIZE ∧
      (([⟨100, 1948⟩] : List MemBlock) ++ ([⟨0, 100⟩] : List MemBlock)).Pairwise
        (fun a b => ¬ Overlap a b)) := by
  have hal : allocator_find_best_fit 100 [⟨0, BUFFER_SIZE⟩] =
      some (⟨0, 100⟩, [⟨100, 1948⟩]) := by decide
  have hre : AllocReach ⟨[⟨100, 1948⟩], [⟨0, 100⟩]⟩ :=
    AllocReach.alloc 100 AllocReach.init hal
  exact ⟨hre, C3_conservation_and_no_overlap _ hre⟩

/-- C10: the allocator never removes a free-list entry.  A successful
allocation keeps the free-list length; on an exact fit the chosen entry
survives as a zero-size block placed at the granted block's end offset;
such a block adjacent to the scanned node is absorbed by the coalescing
pass of a release; and the free list of every reachable state is
non-empty. -/
theorem C10_zero_size_blocks_free_list_nonempty (s : AllocState)
    (h : AllocReach s) :
    s.free ≠ [] ∧
    (∀ (req : Nat) (free free' : List MemBlock) (blk : MemBlock),
      allocator_find_best_fit req free = some (blk, free') →
      free'.length = free.length ∧
      ∃ i b, free[i]? = some b ∧ blk = ⟨b.index, req⟩ ∧
        free' = free.set i ⟨b.index + req, b.size - req⟩ ∧
        (b.size = req → free'[i]? = some ⟨blk.index + blk.size, 0⟩)) ∧
    (∀ (cur : MemBlock) (rest : List MemBlock),
      coalesceGo cur (⟨cur.index + cur.size, 0⟩ :: rest) = coalesceGo cur rest) := by
  refine ⟨?_, ?_, ?_⟩
  · induction h with
    | init => simp
    | alloc req hre hal ih =>
      rename_i s blk free'
      obtain ⟨i, b, hget, -, -, hf'⟩ := find_best_fit_spec req s.free blk free' hal
      show free' ≠ []
      rw [hf']
      intro hemp
      apply ih
      have hlen := congrArg List.length hemp
      rw [List.length_set] at hlen
      exact List.length_eq_zero.mp hlen
    | release o₁ o₂ b hre heq ih =>
      rename_i s
      show allocater_free_memory b s.free ≠ []
      unfold allocater_free_memory
      cases hins : list_insert_sorted b s.free with
      | nil => exact absurd hins (list_insert_sorted_ne_nil b s.free)
      | cons c l' =>
        show coalesceGo c l' ≠ []
        obtain ⟨c2, r2, hr, -⟩ := coalesceGo_head l' c
        rw [hr]
        simp
  · intro req free free' blk hal
    obtain ⟨i, b, hget, hsz, hblk, hf'⟩ := find_best_fit_spec req free blk free' hal
    constructor
    · rw [hf', List.length_set]
    · refine ⟨i, b, hget, hblk, hf', ?_⟩
      intro hexact
      obtain ⟨hlt, -⟩ := List.getElem?_eq_some_iff.mp hget
      rw [hf', List.getElem?_set_self hlt, hblk]
      simp [hexact]
  · intro cur rest
    simp only [coalesceGo]
    simp

/-- Witness for C10: the initial allocator state. -/
theorem C10_zero_size_blocks_free_list_nonempty_witness :
    AllocReach ⟨[⟨0, BUFFER_SIZE⟩], []⟩ ∧
    (([⟨0, BUFFER_SIZE⟩] : List MemBlock) ≠ [] ∧
      (∀ (req : Nat) (free free' : List MemBlock) (blk : MemBlock),
        allocator_find_best_fit req free = some (blk, free') →
        free'.length = free.length ∧
        ∃ i b, free[i]? = some b ∧ blk = ⟨b.index, req⟩ ∧
          free' = free.set i ⟨b.index + req, b.size - req⟩ ∧
          (b.size = req → free'[i]? = some ⟨blk.index + blk.size, 0⟩)) ∧
      (∀ (cur : MemBlock) (rest : List MemBlock),
        coalesceGo cur (⟨cur.index + cur.size, 0⟩ :: rest) = coalesceGo cur rest)) :=
  ⟨AllocReach.init,
   C10_zero_size_blocks_free_list_nonempty _ AllocReach.init⟩

/-! ## C7: run-time monotonicity, bound, and same-step termination -/

/-- One engine step preserves the run-time bound for non-finished
processes and the fact that the running index points at a `RUNNING`
entry. -/
theorem engineStep_bound (a b : Engine) (hstep : EStep a b)
    (ih1 : ∀ p ∈ a.procs, p.state ≠ .FINISHED → p.run_time < p.prog.service_time)
    (ih2 : ∀ i, a.running = some i →
      ∃ p, a.procs[i]? = some p ∧ p.state = .RUNNING) :
    (∀ p ∈ b.procs, p.state ≠ .FINISHED → p.run_time < p.prog.service_time) ∧
    (∀ i, b.running = some i →
      ∃ p, b.procs[i]? = some p ∧ p.state = .RUNNING) := by
  cases hstep with
  | submitNew p hserv hrt hst =>
    constructor
    · intro q hq hqf
      rcases List.mem_append.mp hq with hq | hq
      · exact ih1 q hq hqf
      · simp only [List.mem_singleton] at hq
        subst hq
        rw [hrt]
        omega
    · intro i hi
      obtain ⟨q, hget, hqs⟩ := ih2 i hi
      obtain ⟨hlt, -⟩ := List.getElem?_eq_some_iff.mp hget
      refine ⟨q, ?_, hqs⟩
      rw [List.getElem?_append_left hlt]
      exact hget
  | switch i p hrun hget hready =>
    constructor
    · intro q hq hqf
      rcases List.mem_or_eq_of_mem_set hq with hq | rfl
      · exact ih1 q hq hqf
      · exact ih1 p (List.getElem?_mem hget) (by rw [hready]; simp)
    · intro j hj
      have hij : i = j := by
        have h2 : (some i : Option Nat) = some j := hj
        injection h2
      subst hij
      obtain ⟨hlt, -⟩ := List.getElem?_eq_some_iff.mp hget
      exact ⟨{ p with state := .RUNNING }, List.getElem?_set_self hlt, rfl⟩
  | suspend i p hrun hget =>
    constructor
    · intro q hq hqf
      rcases List.mem_or_eq_of_mem_set hq with hq | rfl
      · exact ih1 q hq hqf
      · obtain ⟨q0, hq0, hq0s⟩ := ih2 i hrun
        rw [hget] at hq0
        injection hq0 with hq0
        subst hq0
        exact ih1 p (List.getElem?_mem hget) (by rw [hq0s]; simp)
    · intro j hj
      simp at hj
  | tick delta =>
    cases hrun : a.running with
    | none =>
      simp only [update, hrun]
      exact ⟨ih1, fun i hi => ih2 i (by rw [hrun]; exact hi)⟩
    | some i =>
      cases hget : a.procs[i]? with
      | none =>
        simp only [update, hrun, hget]
        exact ⟨ih1, fun j hj => ih2 j (by rw [hrun]; exact hj)⟩
      | some p =>
        simp only [update, hrun, hget]
        by_cases hterm : p.prog.service_time ≤ p.run_time + delta
        · rw [if_pos hterm]
          constructor
          · intro q hq hqf
            rcases List.mem_or_eq_of_mem_set hq with hq | rfl
            · exact ih1 q hq hqf
            · simp at hqf
          · intro j hj
            simp at hj
        · rw [if_neg hterm]
          constructor
          · intro q hq hqf
            rcases List.mem_or_eq_of_mem_set hq with hq | rfl
            · exact ih1 q hq hqf
            · show p.run_time + delta < p.prog.service_time
              omega
          · intro j hj
            have hij : i = j := by
              have h2 : (some i : Option Nat) = some j := hj
              injection h2
            subst hij
            obtain ⟨q0, hq0, hq0s⟩ := ih2 i hrun
            rw [hget] at hq0
            injection hq0 with hq0
            subst hq0
            obtain ⟨hlt, -⟩ := List.getElem?_eq_some_iff.mp hget
            exact ⟨_, List.getElem?_set_self hlt, hq0s⟩

/-- Invariant of reachable engine states: every non-finished process has
run-time strictly below its service time, and the running index points at
a `RUNNING` registry entry. -/
theorem engineReach_bound (e : Engine) (h : EngineReach e) :
    (∀ p ∈ e.procs, p.state ≠ .FINISHED → p.run_time < p.prog.service_time) ∧
    (∀ i, e.running = some i →
      ∃ p, e.procs[i]? = some p ∧ p.state = .RUNNING) := by
  induction h with
  | init =>
    constructor
    · intro p hp
      simp at hp
    · intro i hi
      simp at hi
  | step hre hstep ih =>
    exact engineStep_bound _ _ hstep ih.1 ih.2

/-- Across one engine step, the run-time of the registry entry at every
position never decreases. -/
theorem engineStep_run_time_mono (a b : Engine) (hstep : EStep a b) :
    ∀ (i : Nat) (p q : Proc), a.procs[i]? = some p → b.procs[i]? = some q →
      p.run_time ≤ q.run_time := by
  cases hstep with
  | submitNew r hserv hrt hst =>
    intro i p q hp hq
    obtain ⟨hlt, -⟩ := List.getElem?_eq_some_iff.mp hp
    rw [List.getElem?_append_left hlt, hp] at hq
    injection hq with hq
    subst hq
    exact le_refl _
  | switch j r hrun hget hready =>
    intro i p q hp hq
    rw [List.getElem?_set] at hq
    by_cases hij : j = i
    · subst hij
      obtain ⟨hlt, -⟩ := List.getElem?_eq_some_iff.mp hget
      rw [if_pos rfl, if_pos hlt] at hq
      rw [hget] at hp
      injection hp with hp
      injection hq with hq
      subst hp
      subst hq
      exact le_refl _
    · rw [if_neg hij, hp] at hq
      injection hq with hq
      subst hq
      exact le_refl _
  | suspend j r hrun hget =>
    intro i p q hp hq
    rw [List.getElem?_set] at hq
    by_cases hij : j = i
    · subst hij
      obtain ⟨hlt, -⟩ := List.getElem?_eq_some_iff.mp hget
      rw [if_pos rfl, if_pos hlt] at hq
      rw [hget] at hp
      injection hp with hp
      injection hq with hq
      subst hp
      subst hq
      exact le_refl _
    · rw [if_neg hij, hp] at hq
      injection hq with hq
      subst hq
      exact le_refl _
  | tick delta =>
    intro i p q hp hq
    cases hrun : a.running with
    | none =>
      simp only [update, hrun] at hq
      rw [hp] at hq
      injection hq with hq
      subst hq
      exact le_refl _
    | some j =>
      cases hget : a.procs[j]? with
      | none =>
        simp only [update, hrun, hget] at hq
        rw [hp] at hq
        injection hq with hq
        subst hq
        exact le_refl _
      | some r =>
        simp only [update, hrun, hget] at hq
        by_cases hterm : r.prog.service_time ≤ r.run_time + delta
        · rw [if_pos hterm] at hq
          rw [List.getElem?_set] at hq
          by_cases hij : j = i
          · subst hij
            obtain ⟨hlt, -⟩ := List.getElem?_eq_some_iff.mp hget
            rw [if_pos rfl, if_pos hlt] at hq
            rw [hget] at hp
            injection hp with hp
            injection hq with hq
            subst hp
            subst hq
            show r.run_time ≤ r.run_time + delta
            omega
          · rw [if_neg hij, hp] at hq
            injection hq with hq
            subst hq
            exact le_refl _
        · rw [if_neg hterm] at hq
          rw [List.getElem?_set] at hq
          by_cases hij : j = i
          · subst hij
            obtain ⟨hlt, -⟩ := List.getElem?_eq_some_iff.mp hget
            rw [if_pos rfl, if_pos hlt] at hq
            rw [hget] at hp
            injection hp with hp
            injection hq with hq
            subst hp
            subst hq
            show r.run_time ≤ r.run_time + delta
            omega
          · rw [if_neg hij, hp] at hq
            injection hq with hq
            subst hq
            exact le_refl _

/-- C7 counterexample: a reachable engine state (service time 5, quantum
3, two clock updates) holds a process whose accumulated run-time 6 exceeds
its service time 5, refuting the claimed upper bound for every process. -/
theorem C7_counterexample :
    EngineReach ⟨[⟨⟨"A", 0, 5, 0⟩, 6, .FINISHED, none⟩], none, 6⟩ ∧
    ∃ p ∈ (⟨[⟨⟨"A", 0, 5, 0⟩, 6, .FINISHED, none⟩], none, 6⟩ : Engine).procs,
      p.prog.service_time < p.run_time := by
  constructor
  · have h1 : EngineReach ⟨[⟨⟨"A", 0, 5, 0⟩, 0, .READY, none⟩], none, 0⟩ :=
      EngineReach.step EngineReach.init
        (EStep.submitNew ⟨[], none, 0⟩ ⟨⟨"A", 0, 5, 0⟩, 0, .READY, none⟩
          (by decide) rfl rfl)
    have h2 : EngineReach ⟨[⟨⟨"A", 0, 5, 0⟩, 0, .RUNNING, none⟩], some 0, 0⟩ :=
      EngineReach.step h1
        (EStep.switch _ 0 ⟨⟨"A", 0, 5, 0⟩, 0, .READY, none⟩ rfl rfl rfl)
    have h3 : EngineReach ⟨[⟨⟨"A", 0, 5, 0⟩, 3, .RUNNING, none⟩], some 0, 3⟩ :=
      EngineReach.step h2 (EStep.tick _ 3)
    exact EngineReach.step h3 (EStep.tick _ 3)
  · exact ⟨⟨⟨"A", 0, 5, 0⟩, 6, .FINISHED, none⟩, by decide⟩

/-- C7 (amended): across every engine step the accumulated run-time of
each registry entry is non-decreasing; in every state reached by a step
every non-finished process has run-time strictly below (hence at most) its
service time; and whenever a clock update pushes the running process's
run-time to or past its service time, that process is `FINISHED` in the
same step and the running slot is cleared.  (For a finished process the
run-time may exceed the service time by up to quantum − 1.) -/
theorem C7_run_time_monotone_and_termination (e e' : Engine)
    (hre : EngineReach e) (hstep : EStep e e') :
    (∀ (i : Nat) (p q : Proc), e.procs[i]? = some p → e'.procs[i]? = some q →
      p.run_time ≤ q.run_time) ∧
    (∀ p ∈ e'.procs, p.state ≠ .FINISHED → p.run_time < p.prog.service_time) ∧
    (∀ (delta : Nat) i p, e.running = some i → e.procs[i]? = some p →
      p.prog.service_time ≤ p.run_time + delta →
      (update e delta).procs[i]? =
        some { p with run_time := p.run_time + delta, state := .FINISHED } ∧
      (update e delta).running = none) := by
  refine ⟨engineStep_run_time_mono e e' hstep,
    (engineReach_bound e' (EngineReach.step hre hstep)).1, ?_⟩
  intro delta i p hrun hget hterm
  simp only [update, hrun, hget]
  rw [if_pos (by simpa using hterm)]
  obtain ⟨hlt, -⟩ := List.getElem?_eq_some_iff.mp hget
  exact ⟨List.getElem?_set_self hlt, rfl⟩

/-- Witness for C7: one clock update on a reachable running state. -/
theorem C7_run_time_monotone_and_termination_witness :
    EngineReach ⟨[⟨⟨"A", 0, 5, 0⟩, 0, .RUNNING, none⟩], some 0, 0⟩ ∧
    EStep ⟨[⟨⟨"A", 0, 5, 0⟩, 0, .RUNNING, none⟩], some 0, 0⟩
      ⟨[⟨⟨"A", 0, 5, 0⟩, 3, .RUNNING, none⟩], some 0, 3⟩ ∧
    ((∀ (i : Nat) (p q : Proc),
        (⟨[⟨⟨"A", 0, 5, 0⟩, 0, .RUNNING, none⟩], some 0, 0⟩ : Engine).procs[i]? =
          some p →
        (⟨[⟨⟨"A", 0, 5, 0⟩, 3, .RUNNING, none⟩], some 0, 3⟩ : Engine).procs[i]? =
          some q →
        p.run_time ≤ q.run_time) ∧
      (∀ p ∈ (⟨[⟨⟨"A", 0, 5, 0⟩, 3, .RUNNING, none⟩], some 0, 3⟩ : Engine).procs,
        p.state ≠ .FINISHED → p.run_time < p.prog.service_time) ∧
      (∀ (delta : Nat) i p,
        (⟨[⟨⟨"A", 0, 5, 0⟩, 0, .RUNNING, none⟩], some 0, 0⟩ : Engine).running =
          some i →
        (⟨[⟨⟨"A", 0, 5, 0⟩, 0, .RUNNING, none⟩], some 0, 0⟩ : Engine).procs[i]? =
          some p →
        p.prog.service_time ≤ p.run_time + delta →
        (update ⟨[⟨⟨"A", 0, 5, 0⟩, 0, .RUNNING, none⟩], some 0, 0⟩ delta).procs[i]? =
          some { p with run_time := p.run_time + delta, state := .FINISHED } ∧
        (update ⟨[⟨⟨"A", 0, 5, 0⟩, 0, .RUNNING, none⟩], some 0, 0⟩ delta).running =
          none)) := by
  have h1 : EngineReach ⟨[⟨⟨"A", 0, 5, 0⟩, 0, .READY, none⟩], none, 0⟩ :=
    EngineReach.step EngineReach.init
      (EStep.submitNew ⟨[], none, 0⟩ ⟨⟨"A", 0, 5, 0⟩, 0, .READY, none⟩
        (by decide) rfl rfl)
  have h2 : EngineReach ⟨[⟨⟨"A", 0, 5, 0⟩, 0, .RUNNING, none⟩], some 0, 0⟩ :=
    EngineReach.step h1
      (EStep.switch _ 0 ⟨⟨"A", 0, 5, 0⟩, 0, .READY, none⟩ rfl rfl rfl)
  have hst : EStep ⟨[⟨⟨"A", 0, 5, 0⟩, 0, .RUNNING, none⟩], some 0, 0⟩
      ⟨[⟨⟨"A", 0, 5, 0⟩, 3, .RUNNING, none⟩], some 0, 3⟩ :=
    EStep.tick _ 3
  exact ⟨h2, hst, C7_run_time_monotone_and_termination _ _ h2 hst⟩

/-! ## C8: log-line shapes -/

/-- C8 counterexample: the second termination line carries the field
`sha=`, not `result=` as the claim's literal shape requires, and on an
admission with no assigned block (the infinite strategy) no `READY` line
is emitted at all. -/
theorem C8_counterexample :
    process_log 10 1 "x" ⟨⟨"A", 0, 5, 0⟩, 6, .FINISHED, none⟩ =
      ["10,FINISHED,process_name=A,proc_remaining=1",
       "10,FINISHED-PROCESS,process_name=A,sha=x"] ∧
    "10,FINISHED-PROCESS,process_name=A,sha=x" ≠
      "10,FINISHED-PROCESS,process_name=A,result=x" ∧
    check_pending_log 0 ⟨⟨"A", 0, 5, 0⟩, 0, .READY, none⟩ = [] := by
  exact ⟨by decide, by decide, rfl⟩

/-- C8 (amended): each transition emits comma-separated lines of the
literal shapes of the source: admission logs
`<t>,READY,process_name=<name>,assigned_at=<offset>` exactly when a memory
block was assigned (best-fit) and nothing otherwise; a run/resume start
logs `<t>,RUNNING,process_name=<name>,remaining_time=<service-run_time>`;
termination logs exactly two lines, the second being
`<t>,FINISHED-PROCESS,process_name=<name>,sha=<result string>`. -/
theorem C8_log_line_shapes (t pending run_time service arr mem : Nat)
    (name sha : String) (blk : MemBlock) (ob : Option MemBlock) :
    check_pending_log t ⟨⟨name, arr, service, mem⟩, run_time, .READY, some blk⟩ =
      [toString t ++ ",READY,process_name=" ++ name ++ ",assigned_at=" ++
        toString blk.index] ∧
    check_pending_log t ⟨⟨name, arr, service, mem⟩, run_time, .READY, none⟩ = [] ∧
    process_log t pending sha ⟨⟨name, arr, service, mem⟩, run_time, .RUNNING, ob⟩ =
      [toString t ++ ",RUNNING,process_name=" ++ name ++ ",remaining_time=" ++
        toString (service - run_time)] ∧
    process_log t pending sha ⟨⟨name, arr, service, mem⟩, run_time, .FINISHED, ob⟩ =
      [toString t ++ ",FINISHED,process_name=" ++ name ++ ",proc_remaining=" ++
        toString pending,
       toString t ++ ",FINISHED-PROCESS,process_name=" ++ name ++ ",sha=" ++ sha] ∧
    (process_log t pending sha
      ⟨⟨name, arr, service, mem⟩, run_time, .FINISHED, ob⟩).length = 2 := by
  exact ⟨rfl, rfl, rfl, rfl, rfl⟩

/-! ## C6: admission of arrived programs and the admission-queue scan -/

/-- C6 counterexample: when the raw input is not ordered by arrival time,
a program whose arrival time has passed is not moved into the admission
queue: the arrival loop breaks at the first not-yet-arrived program.  With
input `A` (arrives at 10) before `B` (arrives at 0) at time 0, `B` is
moved nowhere — the queue stays empty — even under the infinite strategy
where admission always succeeds. -/
theorem C6_counterexample :
    check_pending .INFINITE [⟨"A", 10, 5, 0⟩, ⟨"B", 0, 5, 0⟩] [] [] [] [] 0 =
      ([⟨"A", 10, 5, 0⟩, ⟨"B", 0, 5, 0⟩], [], [], [], []) ∧
    (⟨"B", 0, 5, 0⟩ : Program).time_arrived ≤ 0 := by
  exact ⟨by decide, by decide⟩

/-- C6 (amended): on each step the arrival loop moves exactly the maximal
input-order prefix of the remaining raw programs whose arrival times are
at most the current time (all arrived programs whenever the input is
sorted by arrival time); the admission queue is then scanned head-to-tail
threading the free list left to right — scanning a concatenation scans the
first part and continues into the second with the updated free list — and
an entry whose process cannot be created stays in place while the scan
moves on past it. -/
theorem C6_admission_scan (strategy : MEMORY_STRATEGY) (p : Program)
    (rest : List Program) (f : List MemBlock)
    (hfail : process_try_create strategy p f = none) :
    (∀ (t : Nat) (progs : List Program),
      arrivalsLoop t progs =
        (progs.takeWhile (fun q => decide (q.time_arrived ≤ t)),
         progs.dropWhile (fun q => decide (q.time_arrived ≤ t)))) ∧
    (∀ (q₁ q₂ : List Program) (f₀ : List MemBlock),
      scanInput strategy (q₁ ++ q₂) f₀ =
        ((scanInput strategy q₁ f₀).1 ++
           (scanInput strategy q₂ (scanInput strategy q₁ f₀).2.2).1,
         (scanInput strategy q₁ f₀).2.1 ++
           (scanInput strategy q₂ (scanInput strategy q₁ f₀).2.2).2.1,
         (scanInput strategy q₂ (scanInput strategy q₁ f₀).2.2).2.2)) ∧
    scanInput strategy (p :: rest) f =
      (p :: (scanInput strategy rest f).1, (scanInput strategy rest f).2.1,
       (scanInput strategy rest f).2.2) := by
  refine ⟨?_, ?_, ?_⟩
  · intro t progs
    induction progs with
    | nil => rfl
    | cons q qs ih =>
      simp only [arrivalsLoop, List.takeWhile, List.dropWhile]
      by_cases hq : q.time_arrived ≤ t
      · have hgt : ¬ q.time_arrived > t := by omega
        simp [hq, hgt, ih]
      · have hgt : q.time_arrived > t := by omega
        simp [hq, hgt]
  · intro q₁ q₂ f₀
    induction q₁ generalizing f₀ with
    | nil => simp [scanInput]
    | cons q qs ih =>
      simp only [List.cons_append, scanInput]
      cases hc : process_try_create strategy q f₀ with
      | none => simp [ih f₀]
      | some pr => simp [ih pr.2]
  · simp [scanInput, hfail]

/-- Witness for C6: a concrete failing entry under best fit stays at the
head of the admission queue while the scan continues. -/
theorem C6_admission_scan_witness :
    process_try_create .BEST_FIT ⟨"A", 0, 5, 5⟩ [⟨0, 3⟩] = none ∧
    scanInput .BEST_FIT (⟨"A", 0, 5, 5⟩ :: [⟨"B", 0, 5, 2⟩]) [⟨0, 3⟩] =
      (⟨"A", 0, 5, 5⟩ :: (scanInput .BEST_FIT [⟨"B", 0, 5, 2⟩] [⟨0, 3⟩]).1,
       (scanInput .BEST_FIT [⟨"B", 0, 5, 2⟩] [⟨0, 3⟩]).2.1,
       (scanInput .BEST_FIT [⟨"B", 0, 5, 2⟩] [⟨0, 3⟩]).2.2) :=
  ⟨by decide,
   (C6_admission_scan .BEST_FIT ⟨"A", 0, 5, 5⟩ [⟨"B", 0, 5, 2⟩] [⟨0, 3⟩]
     (by decide)).2.2⟩
